import Mathlib

/-!
Verification development for the `osmem` memory allocator (src/osmem.c).

The allocator manages a contiguous heap region as a doubly-linked list of
blocks (header + payload) and serves large requests from fresh anonymous
mappings.  We give a shallow embedding: the heap list becomes a Lean
`List Block` in address order (the `prev`/`next` links of the C list are
exactly the list structure), machine `size_t` arithmetic is `Nat` with an
explicit modulus `W = 2^64`, and the kernel interface (`sbrk`, `mmap`,
`munmap`, `getpagesize`) becomes explicit state: a program break counter,
a list of live anonymous mappings, and a page-size field.

Memory content conventions of the embedding:
* pages freshly obtained from the kernel (both `mmap` and extension of the
  program break) read as zero; this program never lowers the break, so
  every byte delivered by `sbrk` is a fresh kernel page byte;
* the stale header bytes that `merge` turns into payload are modelled by
  the nonzero marker byte `1` (their concrete value is irrelevant, but they
  are not guaranteed to be zero, so they must not be modelled as `0`).
-/

namespace OSMem

/-- The `size_t` modulus: all C arithmetic in the allocator is on 64-bit
unsigned integers. -/
def W : Nat := 2 ^ 64

/-- `(a - b) mod 2^64`: C unsigned subtraction (for `a`, `b` arbitrary). -/
def wsub (a b : Nat) : Nat := (a + (W - b % W)) % W

/-- `MMAP_THRESHOLD` from utils.h: `128 * 1024`. -/
def MMAP_THRESHOLD : Nat := 128 * 1024

/-- `INIT_MEM_ALLOC` from utils.h: `128 * 1024`. -/
def INIT_MEM_ALLOC : Nat := 128 * 1024

/-- `INT_MAX` from utils.h: `2147483647`. -/
def INT_MAX : Nat := 2147483647

/-- Modelled from the spec: `block_meta.h` is not part of the sources;
per §3/§9 of the spec the header (size, status, prev, next) occupies 32
bytes, so `sizeof(struct block_meta) = 32`. -/
def sizeof_block_meta : Nat := 32

/-- Block status (`STATUS_FREE` / `STATUS_ALLOC` / `STATUS_MAPPED`). -/
inductive Status where
  | FREE
  | ALLOC
  | MAPPED
deriving DecidableEq

/-- A block: stored payload size (`size` field of `struct block_meta`),
status, and the payload bytes.  The `prev`/`next` links are the position
in the enclosing `List Block`. -/
structure Block where
  size : Nat
  status : Status
  payload : List Nat
deriving DecidableEq

/-- Bytes of the heap region covered by a list of blocks:
each block contributes its header plus its payload. -/
def covered (hs : Nat) (l : List Block) : Nat :=
  (l.map (fun b => hs + b.size)).sum

/-- Address at which the `i`-th block of a heap list starting at `base`
lives (invariant I3: list members are address-adjacent). -/
def blockAddr (hs base : Nat) (l : List Block) (i : Nat) : Nat :=
  base + covered hs (l.take i)

/-- Payload address of the `i`-th heap block (what the allocator hands
out: block address plus header size). -/
def payloadAddr (hs base : Nat) (l : List Block) (i : Nat) : Nat :=
  blockAddr hs base l i + hs

/-- A pointer value handed to / returned by the allocator: the null
pointer, an address inside the break-backed heap region, or an address
inside a live anonymous mapping (mappings are disjoint from the heap
region, which the constructor split records). -/
inductive Ptr where
  | null
  | hp (a : Nat)
  | mp (id : Nat)
deriving DecidableEq

/-- Process-wide allocator state.  `heap` is the doubly-linked heap list
reachable from `heap_start` (empty list = `heap_start == NULL`),
`heapBase` the address of its first block, `brk` the current program
break, `mapped` the live fast-path anonymous mappings keyed by an id,
`pagesize`/`headerSize` the two lazily (re)computed globals and
`sysPagesize` the kernel's page size (what `getpagesize()` returns). -/
structure AllocState where
  heap : List Block
  heapBase : Nat
  brk : Nat
  mapped : List (Nat × Block)
  nextMapId : Nat
  pagesize : Nat
  headerSize : Nat
  sysPagesize : Nat
deriving DecidableEq

/-- Initial program break of the model. -/
def BRK0 : Nat := 1048576

/-- State before the first allocator call on a system whose page size is
`ps`: `heap_start == NULL`, `pagesize == 0`, `header_size == 32`. -/
def initState (ps : Nat) : AllocState :=
  { heap := [], heapBase := BRK0, brk := BRK0, mapped := [], nextMapId := 0,
    pagesize := 0, headerSize := 32, sysPagesize := ps }

/-- `aligned_size`: round up to a multiple of 8, in `size_t` arithmetic. -/
def aligned_size (bytes : Nat) : Nat :=
  if bytes % 8 = 0 then bytes else (bytes + (8 - bytes % 8)) % W

/-- `fill_with_zeros`: write `block->size` zero bytes into the payload. -/
def fill_with_zeros (b : Block) : Block :=
  { b with payload := List.replicate b.size 0 }

/-- `merge(first, second)` (second is first's successor): `first` absorbs
`second`, growing by `header_size + second->size`; the `hs` bytes where
`second`'s header sat become payload content (stale header bytes, modelled
by the nonzero marker `1`).  The relinking around `second` is the removal
of `second` from the enclosing list, done at each call site. -/
def mergeB (hs : Nat) (a b : Block) : Block :=
  { size := (a.size + hs + b.size) % W, status := a.status,
    payload := a.payload ++ List.replicate hs 1 ++ b.payload }

/-- `split(block, bytes)` acting on one block: if
`header_size + block->size - bytes <= header_size` (size_t arithmetic)
leave the block alone; otherwise the block is cut at offset `bytes`: the
prefix keeps the status with size `bytes - header_size`, and a new FREE
block of size `block->size - bytes` is inserted right after it.  The new
header overwrites payload bytes `[bytes - hs, bytes)`; the new payload is
the old payload from offset `bytes` on. -/
def splitBlock (hs : Nat) (b : Block) (bytes : Nat) : List Block :=
  if wsub (hs + b.size) bytes ≤ hs then [b]
  else
    [{ size := wsub bytes hs, status := b.status, payload := b.payload.take (wsub bytes hs) },
     { size := wsub b.size bytes, status := Status.FREE, payload := b.payload.drop bytes }]

/-- `split` applied to the `i`-th member of the heap list (the inserted
block's `prev`/`next` relinking is the list insertion). -/
def splitList (hs : Nat) : List Block → Nat → Nat → List Block
  | [], _, _ => []
  | b :: r, 0, bytes => splitBlock hs b bytes ++ r
  | b :: r, i + 1, bytes => b :: splitList hs r i bytes

/-- Replace the `i`-th block by `f` of it. -/
def updateAt (f : Block → Block) : List Block → Nat → List Block
  | [], _ => []
  | b :: r, 0 => f b :: r
  | b :: r, i + 1 => b :: updateAt f r i

/-- Set the status of the `i`-th block. -/
def setStatusAt (l : List Block) (i : Nat) (st : Status) : List Block :=
  updateAt (fun b => { b with status := st }) l i

/-- Remove the `i`-th block from the list. -/
def removeAt : List Block → Nat → List Block
  | [], _ => []
  | _ :: r, 0 => r
  | b :: r, i + 1 => b :: removeAt r i

/-- `coalesce_blocks`, with the loop's fuel made explicit (each iteration
either merges, shortening the list, or advances, so `l.length` fuel is
enough; `coalesce` below supplies it). -/
def coalesceFuel (hs : Nat) : Nat → List Block → List Block
  | 0, l => l
  | _ + 1, [] => []
  | _ + 1, [b] => [b]
  | f + 1, a :: b :: r =>
    if a.status = Status.FREE ∧ b.status = Status.FREE then
      coalesceFuel hs f (mergeB hs a b :: r)
    else
      a :: coalesceFuel hs f (b :: r)

/-- `coalesce_blocks(first_block)`: single forward pass merging adjacent
FREE blocks. -/
def coalesce (hs : Nat) (l : List Block) : List Block :=
  coalesceFuel hs l.length l

/-- The accumulator pass of `find_best_block`'s loop: walk the list
keeping the best candidate `(index, size)` seen so far; a candidate is a
FREE block with `size + header_size >= bytes` (size_t arithmetic); a later
candidate replaces the best one only when strictly smaller. -/
def fbiAux (hs bytes : Nat) : List Block → Nat → Option (Nat × Nat) → Option (Nat × Nat)
  | [], _, best => best
  | b :: r, idx, best =>
    let best' :=
      if b.status = Status.FREE ∧ bytes ≤ (b.size + hs) % W then
        match best with
        | none => some (idx, b.size)
        | some (bi, bs) => if b.size < bs then some (idx, b.size) else some (bi, bs)
      else best
    fbiAux hs bytes r (idx + 1) best'

/-- Index of the block `find_best_block` selects, if any. -/
def find_best_index (hs : Nat) (l : List Block) (bytes : Nat) : Option Nat :=
  (fbiAux hs bytes l 0 none).map Prod.fst

/-- `find_best_block(first_block, bytes)`: on a hit, the winner is split
to `bytes` and marked ALLOC; on a miss the caller must grow. -/
def find_best_block (hs : Nat) (l : List Block) (bytes : Nat) : Option (Nat × List Block) :=
  match find_best_index hs l bytes with
  | none => none
  | some i => some (i, setStatusAt (splitList hs l i bytes) i Status.ALLOC)

/-- `alloc_block(prev, bytes, threshold)` minus the linking (done by each
call site in the list model).  Returns the updated state, the new block,
whether it was mapped, and — for the `sbrk` case — the address at which
the block was placed (the old break).  `mmap` pages and freshly
provisioned break pages read as zero (the break never decreases in this
program).  The kernel never refuses in the model, so `DIE` never fires. -/
def alloc_block (s : AllocState) (bytes threshold : Nat) :
    AllocState × Block × Bool × Nat :=
  if threshold < bytes then
    (s, { size := wsub bytes s.headerSize, status := Status.MAPPED,
          payload := List.replicate (wsub bytes s.headerSize) 0 }, true, s.brk)
  else
    ({ s with brk := s.brk + bytes },
     { size := wsub bytes s.headerSize, status := Status.ALLOC,
       payload := List.replicate (wsub bytes s.headerSize) 0 }, false, s.brk)

/-- `alloc_block_with_zeros(prev, bytes)`: allocate with threshold
`pagesize` and zero the payload. -/
def alloc_block_with_zeros (s : AllocState) (bytes : Nat) :
    AllocState × Block × Bool × Nat :=
  let r := alloc_block s bytes s.pagesize
  (r.1, fill_with_zeros r.2.1, r.2.2.1, r.2.2.2)

/-- `prealloc(threshold, bytes)`: the one-shot first heap allocation.
Non-pagesize threshold (the `os_malloc` side): `INIT_MEM_ALLOC` when the
request is below the threshold, else the request itself.  Pagesize
threshold (the `os_calloc` side): same split, with the small branch
zero-filled explicitly (via `INT_MAX` as threshold) and the large branch
going through `alloc_block_with_zeros` — whose internal threshold is the
page size, so that branch may map. -/
def prealloc (s : AllocState) (threshold bytes : Nat) :
    AllocState × Block × Nat :=
  if threshold = s.pagesize then
    if bytes < threshold then
      let r := alloc_block s INIT_MEM_ALLOC INT_MAX
      (r.1, fill_with_zeros r.2.1, r.2.2.2)
    else
      let r := alloc_block_with_zeros s bytes
      (r.1, r.2.1, r.2.2.2)
  else
    if bytes < threshold then
      let r := alloc_block s INIT_MEM_ALLOC threshold
      (r.1, r.2.1, r.2.2.2)
    else
      let r := alloc_block s bytes threshold
      (r.1, r.2.1, r.2.2.2)

/-- Merge the last two blocks of a list (tail growth: the freshly
allocated region is linked after the old tail and merged into it). -/
def mergeLastTwo (hs : Nat) : List Block → List Block
  | [a, b] => [mergeB hs a b]
  | a :: b :: c :: r => a :: mergeLastTwo hs (b :: c :: r)
  | l => l

/-- `os_malloc(size)`. -/
def os_malloc (s : AllocState) (size0 : Nat) : AllocState × Ptr :=
  let size := aligned_size size0
  if size = 0 then (s, Ptr.null)
  else if MMAP_THRESHOLD < (size + s.headerSize) % W then
    -- alloc_block(NULL, size + header_size, MMAP_THRESHOLD): bytes exceed
    -- the threshold here, so this is always a fresh mapping
    let r := alloc_block s ((size + s.headerSize) % W) MMAP_THRESHOLD
    if r.2.2.1 then
      ({ r.1 with mapped := (r.1.nextMapId, r.2.1) :: r.1.mapped,
                  nextMapId := r.1.nextMapId + 1 }, Ptr.mp r.1.nextMapId)
    else (r.1, Ptr.hp (r.2.2.2 + s.headerSize))
  else if s.heap = [] then
    let r := prealloc s MMAP_THRESHOLD ((size + s.headerSize) % W)
    ({ r.1 with heap := [r.2.1], heapBase := s.brk }, Ptr.hp (s.brk + s.headerSize))
  else
    let hs := s.headerSize
    let h0 := coalesce hs s.heap
    match find_best_block hs h0 ((size + hs) % W) with
    | some ih =>
      ({ s with heap := ih.2 }, Ptr.hp (payloadAddr hs s.heapBase ih.2 ih.1))
    | none =>
      match h0.getLast? with
      | none => (s, Ptr.null)      -- unreachable: the heap list is non-empty here
      | some tl =>
        if tl.status = Status.FREE then
          let r := alloc_block { s with heap := h0 } (wsub size tl.size) MMAP_THRESHOLD
          let h2 := mergeLastTwo hs (h0 ++ [r.2.1])
          let h3 := setStatusAt h2 (h2.length - 1) Status.ALLOC
          ({ r.1 with heap := h3 }, Ptr.hp (payloadAddr hs s.heapBase h3 (h3.length - 1)))
        else
          let r := alloc_block { s with heap := h0 } ((size + hs) % W) MMAP_THRESHOLD
          let h2 := h0 ++ [r.2.1]
          ({ r.1 with heap := h2 }, Ptr.hp (payloadAddr hs s.heapBase h2 (h2.length - 1)))

/-- Find the heap-list index whose payload starts at address `a`, walking
the address-adjacent list from `cur`. -/
def findIdxFrom (hs : Nat) : List Block → Nat → Nat → Option Nat
  | [], _, _ => none
  | b :: r, cur, a =>
    if cur + hs = a then some 0
    else (findIdxFrom hs r (cur + hs + b.size) a).map (· + 1)

/-- Heap-list index of the block whose payload address is `a`. -/
def findHeapIdx (s : AllocState) (a : Nat) : Option Nat :=
  findIdxFrom s.headerSize s.heap s.heapBase a

/-- First mapping with the given id. -/
def lookupMapped : List (Nat × Block) → Nat → Option Block
  | [], _ => none
  | (i, b) :: r, id => if i = id then some b else lookupMapped r id

/-- Remove the first mapping with the given id (munmap). -/
def removeMapped : List (Nat × Block) → Nat → List (Nat × Block)
  | [], _ => []
  | (i, b) :: r, id => if i = id then r else (i, b) :: removeMapped r id

/-- Rewrite the first mapping with the given id. -/
def updateMapped (f : Block → Block) : List (Nat × Block) → Nat → List (Nat × Block)
  | [], _ => []
  | (i, b) :: r, id => if i = id then (i, f b) :: r else (i, b) :: updateMapped f r id

/-- The block a pointer refers to (the header recovered at
`ptr - header_size`), if the pointer refers into the model's memory. -/
def ptrBlock (s : AllocState) (p : Ptr) : Option Block :=
  match p with
  | Ptr.null => none
  | Ptr.hp a => (findHeapIdx s a).bind fun i => s.heap.get? i
  | Ptr.mp id => lookupMapped s.mapped id

/-- Rewrite the block a pointer refers to. -/
def writeBlockAt (s : AllocState) (p : Ptr) (f : Block → Block) : AllocState :=
  match p with
  | Ptr.null => s
  | Ptr.hp a =>
    match findHeapIdx s a with
    | some i => { s with heap := updateAt f s.heap i }
    | none => s
  | Ptr.mp id => { s with mapped := updateMapped f s.mapped id }

/-- `os_free(ptr)`.  A pointer that refers to no block of the model is
left alone (the C code would read an arbitrary header there — undefined
behaviour no theorem below exercises).  `munmap` of a MAPPED block that
sits in the heap list releases its pages; the list links through it then
dangle, which the list model renders as removal. -/
def os_free (s : AllocState) (p : Ptr) : AllocState :=
  match p with
  | Ptr.null => s
  | Ptr.hp a =>
    match findHeapIdx s a with
    | none => s
    | some i =>
      match s.heap.get? i with
      | none => s
      | some b =>
        if b.status = Status.FREE then s
        else if b.status = Status.MAPPED then { s with heap := removeAt s.heap i }
        else { s with heap := setStatusAt s.heap i Status.FREE }
  | Ptr.mp id =>
    match lookupMapped s.mapped id with
    | none => s
    | some b =>
      if b.status = Status.FREE then s
      else if b.status = Status.MAPPED then { s with mapped := removeMapped s.mapped id }
      else { s with mapped := updateMapped (fun bb => { bb with status := Status.FREE }) s.mapped id }

/-- `os_calloc(nmemb, size)`.  Note the size_t product `nmemb * size`
wraps modulo `2^64`, and the mapping test compares the raw per-element
`size` (not the aligned product) against the page size. -/
def os_calloc (s : AllocState) (nmemb size : Nat) : AllocState × Ptr :=
  if nmemb = 0 ∨ size = 0 then (s, Ptr.null)
  else
    let new_size := aligned_size ((nmemb * size) % W)
    let s := if s.pagesize = 0 then { s with pagesize := s.sysPagesize } else s
    if s.pagesize < (size + s.headerSize) % W then
      -- alloc_block(NULL, new_size + header_size, pagesize), not linked
      let r := alloc_block s ((new_size + s.headerSize) % W) s.pagesize
      if r.2.2.1 then
        ({ r.1 with mapped := (r.1.nextMapId, r.2.1) :: r.1.mapped,
                    nextMapId := r.1.nextMapId + 1 }, Ptr.mp r.1.nextMapId)
      else
        -- only reachable when nmemb * size wrapped: an sbrk block that is
        -- never linked into the heap list
        (r.1, Ptr.hp (r.2.2.2 + s.headerSize))
    else if s.heap = [] then
      let s := { s with headerSize := aligned_size sizeof_block_meta }
      let r := prealloc s s.pagesize ((new_size + s.headerSize) % W)
      ({ r.1 with heap := [r.2.1], heapBase := s.brk }, Ptr.hp (s.brk + s.headerSize))
    else
      let hs := s.headerSize
      let h0 := coalesce hs s.heap
      match find_best_block hs h0 ((new_size + hs) % W) with
      | some ih =>
        let h2 := updateAt fill_with_zeros ih.2 ih.1
        ({ s with heap := h2 }, Ptr.hp (payloadAddr hs s.heapBase h2 ih.1))
      | none =>
        match h0.getLast? with
        | none => (s, Ptr.null)    -- unreachable: the heap list is non-empty here
        | some tl =>
          if tl.status = Status.FREE then
            let r := alloc_block { s with heap := h0 } (wsub new_size tl.size) s.pagesize
            let h2 := mergeLastTwo hs (h0 ++ [r.2.1])
            -- note: unlike os_malloc, the status of the grown tail is not
            -- changed (it stays FREE); only the payload is zeroed
            let h3 := updateAt fill_with_zeros h2 (h2.length - 1)
            ({ r.1 with heap := h3 }, Ptr.hp (payloadAddr hs s.heapBase h3 (h3.length - 1)))
          else
            let r := alloc_block_with_zeros { s with heap := h0 } ((new_size + hs) % W)
            let h2 := h0 ++ [r.2.1]
            ({ r.1 with heap := h2 }, Ptr.hp (payloadAddr hs s.heapBase h2 (h2.length - 1)))

/-- `relocate_mem(block, size)`: malloc a new block, copy
`min(new->size, old->size)` payload bytes, free the old pointer. -/
def relocate_mem (s : AllocState) (p : Ptr) (size : Nat) : AllocState × Ptr :=
  let r := os_malloc s size
  match ptrBlock r.1 r.2, ptrBlock r.1 p with
  | some nb, some ob =>
    let m := min nb.size ob.size
    let s2 := writeBlockAt r.1 r.2 (fun bb => { bb with payload := ob.payload.take m ++ bb.payload.drop m })
    (os_free s2 p, r.2)
  | _, _ => (os_free r.1 p, r.2)

/-- The grow-by-merging loop of `os_realloc`: while the successor exists
and is FREE, merge it in; once the block is big enough, split the excess
off and succeed.  Returns the rewritten list suffix (the block and what
follows it) and whether the request was satisfied in place. -/
def reallocMergeLoop (hs sz : Nat) : Block → List Block → List Block × Bool
  | b, [] => ([b], false)
  | b, nxt :: rest =>
    if nxt.status = Status.FREE then
      let b' := mergeB hs b nxt
      if sz ≤ b'.size then (splitBlock hs b' (hs + sz) ++ rest, true)
      else reallocMergeLoop hs sz b' rest
    else (b :: nxt :: rest, false)

/-- `os_realloc(ptr, size)`. -/
def os_realloc (s : AllocState) (p : Ptr) (size0 : Nat) : AllocState × Ptr :=
  let size := aligned_size size0
  if size = 0 then (os_free s p, Ptr.null)
  else if p = Ptr.null then os_malloc s size
  else
    match ptrBlock s p with
    | none => (s, Ptr.null)        -- out-of-model pointer: C reads an arbitrary header
    | some b =>
      if b.status = Status.FREE then (s, Ptr.null)
      else if b.status = Status.MAPPED then relocate_mem s p size
      else if size = b.size then (s, p)
      else
        match p with
        | Ptr.hp a =>
          match findHeapIdx s a with
          | none => (s, Ptr.null)  -- unreachable: ptrBlock succeeded above
          | some i =>
            if size < b.size then
              ({ s with heap := splitList s.headerSize s.heap i (size + s.headerSize) }, p)
            else if i = s.heap.length - 1 then
              -- brk(ptr + size): extend the break so the payload reaches size
              ({ s with brk := a + size,
                        heap := updateAt (fun bb =>
                          { bb with size := size,
                                    payload := bb.payload ++ List.replicate (size - bb.size) 0 }) s.heap i }, p)
            else
              let lp := reallocMergeLoop s.headerSize size b (s.heap.drop (i + 1))
              let s2 := { s with heap := s.heap.take i ++ lp.1 }
              if lp.2 then (s2, p) else relocate_mem s2 p size
        | _ => (s, Ptr.null)       -- an ALLOC block inside a mapping cannot occur

/-- Every payload byte of a block reads as zero. -/
def allZero (b : Block) : Bool :=
  b.payload.all (fun x => x = 0)

/-- Whether a pointer refers into the break-backed heap region. -/
def isHeapPtr : Ptr → Bool
  | Ptr.hp _ => true
  | _ => false

/-- No block of the list is backed by an anonymous mapping. -/
def noMappedBlocks (l : List Block) : Bool :=
  l.all (fun b => b.status ≠ Status.MAPPED)

/-- A candidate of the best-fit search, in the spec's arithmetic: a FREE
block whose `header_size + size` covers the request. -/
def IsCandidate (hs bytes : Nat) (l : List Block) (j : Nat) : Prop :=
  ∃ b, l.get? j = some b ∧ b.status = Status.FREE ∧ bytes ≤ hs + b.size

/-- A candidate in the model's size_t arithmetic (what the C comparison
`block->size + header_size >= bytes` computes). -/
def CandAt (hs bytes : Nat) (l : List Block) (j : Nat) : Prop :=
  ∃ b, l.get? j = some b ∧ b.status = Status.FREE ∧ bytes ≤ (b.size + hs) % W

/-- Stored size of the `j`-th block (0 past the end). -/
def sizeAt (l : List Block) (j : Nat) : Nat :=
  ((l.get? j).map Block.size).getD 0

/-- Invariant of the best-fit loop after the first `k` blocks have been
examined: `none` means no candidate among them; `some (bi, bs)` means
`bi` is a candidate of size `bs` among them, of minimal size, and
strictly smaller than every earlier candidate. -/
def BestInv (hs bytes : Nat) (l : List Block) (k : Nat) : Option (Nat × Nat) → Prop
  | none => ∀ j < k, ¬ CandAt hs bytes l j
  | some (bi, bs) => bi < k ∧ CandAt hs bytes l bi ∧ sizeAt l bi = bs ∧
      (∀ j < k, CandAt hs bytes l j → bs ≤ sizeAt l j) ∧
      (∀ j < bi, CandAt hs bytes l j → bs < sizeAt l j)

/- ------------------------------------------------------------------ -/
/- Arithmetic and list lemmas                                          -/
/- ------------------------------------------------------------------ -/

theorem W_eq : W = 18446744073709551616 := by norm_num [W]

theorem wsub_eq_of_le {a b : Nat} (h : b ≤ a) (hb : b < W) (hab : a - b < W) :
    wsub a b = a - b := by
  unfold wsub
  rw [Nat.mod_eq_of_lt hb]
  have h1 : a + (W - b) = (a - b) + W := by omega
  rw [h1, Nat.add_mod_right, Nat.mod_eq_of_lt hab]

theorem covered_nil (hs : Nat) : covered hs [] = 0 := rfl

theorem covered_cons (hs : Nat) (b : Block) (l : List Block) :
    covered hs (b :: l) = hs + b.size + covered hs l := by
  simp [covered]

theorem covered_append (hs : Nat) (l1 l2 : List Block) :
    covered hs (l1 ++ l2) = covered hs l1 + covered hs l2 := by
  simp [covered]

theorem mem_le_covered {hs : Nat} {b : Block} {l : List Block} (h : b ∈ l) :
    hs + b.size ≤ covered hs l := by
  induction l with
  | nil => cases h
  | cons x r ih =>
    rcases List.mem_cons.mp h with h1 | h2
    · subst h1; rw [covered_cons]; omega
    · have := ih h2; rw [covered_cons]; omega

theorem covered_take_lt {hs : Nat} (hpos : 0 < hs) {l : List Block} {i : Nat}
    (hi : i < l.length) : covered hs (l.take i) < covered hs l := by
  conv_rhs => rw [← List.take_append_drop i l]
  rw [covered_append]
  have hd : l.drop i ≠ [] := by
    intro hnil
    have := List.length_drop i l
    rw [hnil] at this
    simp at this
    omega
  rcases List.exists_cons_of_ne_nil hd with ⟨c, r, hc⟩
  rw [hc, covered_cons]
  omega

theorem length_updateAt (f : Block → Block) (l : List Block) (i : Nat) :
    (updateAt f l i).length = l.length := by
  induction l generalizing i with
  | nil => rfl
  | cons b r ih =>
    cases i with
    | zero => rfl
    | succ j => simp [updateAt, ih]

theorem updateAt_append_cons (f : Block → Block) (l1 : List Block) (b : Block)
    (l2 : List Block) : updateAt f (l1 ++ b :: l2) l1.length = l1 ++ f b :: l2 := by
  induction l1 with
  | nil => rfl
  | cons x r ih => simp [updateAt, ih]

theorem take_updateAt (f : Block → Block) (l : List Block) (i : Nat) :
    (updateAt f l i).take i = l.take i := by
  induction l generalizing i with
  | nil => rfl
  | cons b r ih =>
    cases i with
    | zero => rfl
    | succ j => simp [updateAt, ih]

theorem get?_updateAt_self (f : Block → Block) (l : List Block) (i : Nat) :
    (updateAt f l i).get? i = (l.get? i).map f := by
  induction l generalizing i with
  | nil => rfl
  | cons b r ih =>
    cases i with
    | zero => rfl
    | succ j => simpa [updateAt] using ih j

theorem covered_updateAt (f : Block → Block) (hf : ∀ b, (f b).size = b.size)
    (hs : Nat) (l : List Block) (i : Nat) :
    covered hs (updateAt f l i) = covered hs l := by
  induction l generalizing i with
  | nil => rfl
  | cons b r ih =>
    cases i with
    | zero => simp [updateAt, covered_cons, hf]
    | succ j => simp [updateAt, covered_cons, ih]

theorem setStatusAt_append_cons (l1 : List Block) (b : Block) (l2 : List Block)
    (st : Status) :
    setStatusAt (l1 ++ b :: l2) l1.length st = l1 ++ { b with status := st } :: l2 := by
  unfold setStatusAt
  exact updateAt_append_cons _ l1 b l2

theorem splitList_append_cons (hs : Nat) (l1 : List Block) (b : Block)
    (l2 : List Block) (bytes : Nat) :
    splitList hs (l1 ++ b :: l2) l1.length bytes = l1 ++ (splitBlock hs b bytes ++ l2) := by
  induction l1 with
  | nil => rfl
  | cons x r ih => simp [splitList, ih]

/-- The split condition, in plain arithmetic: the block is left intact
exactly when `block->size <= bytes` (given no size_t wrap is possible). -/
theorem splitBlock_cond {hs bytes : Nat} {b : Block} (h1 : hs ≤ bytes)
    (h2 : bytes ≤ hs + b.size) (h3 : hs + b.size < W) :
    (wsub (hs + b.size) bytes ≤ hs) ↔ b.size ≤ bytes := by
  rw [wsub_eq_of_le (by omega) (by omega) (by omega)]
  omega

theorem splitBlock_of_le {hs bytes : Nat} {b : Block} (h1 : hs ≤ bytes)
    (h2 : bytes ≤ hs + b.size) (h3 : hs + b.size < W) (h4 : b.size ≤ bytes) :
    splitBlock hs b bytes = [b] := by
  unfold splitBlock
  rw [if_pos ((splitBlock_cond h1 h2 h3).mpr h4)]

theorem splitBlock_of_lt {hs bytes : Nat} {b : Block} (h1 : hs ≤ bytes)
    (h2 : bytes ≤ hs + b.size) (h3 : hs + b.size < W) (h4 : bytes < b.size) :
    splitBlock hs b bytes =
      [{ size := bytes - hs, status := b.status, payload := b.payload.take (bytes - hs) },
       { size := b.size - bytes, status := Status.FREE, payload := b.payload.drop bytes }] := by
  unfold splitBlock
  rw [if_neg (by rw [splitBlock_cond h1 h2 h3]; omega)]
  rw [wsub_eq_of_le (by omega) (by omega) (by omega),
      wsub_eq_of_le (by omega) (by omega) (by omega)]

theorem covered_splitBlock {hs bytes : Nat} {b : Block} (h1 : hs ≤ bytes)
    (h2 : bytes ≤ hs + b.size) (h3 : hs + b.size < W) :
    covered hs (splitBlock hs b bytes) = hs + b.size := by
  by_cases h4 : b.size ≤ bytes
  · rw [splitBlock_of_le h1 h2 h3 h4, covered_cons, covered_nil]
    omega
  · rw [splitBlock_of_lt h1 h2 h3 (by omega), covered_cons, covered_cons, covered_nil]
    dsimp only
    omega

/-- Looking up the payload address of the block after prefix `l1` finds
exactly that block. -/
theorem findIdxFrom_at (hs : Nat) (hpos : 0 < hs) (l1 : List Block) (b : Block)
    (l2 : List Block) (cur : Nat) :
    findIdxFrom hs (l1 ++ b :: l2) cur (cur + covered hs l1 + hs) = some l1.length := by
  induction l1 generalizing cur with
  | nil =>
    simp [findIdxFrom, covered_nil]
  | cons x r ih =>
    have hne : ¬ (cur + hs = cur + covered hs (x :: r) + hs) := by
      rw [covered_cons]
      have : 0 < hs + x.size + covered hs r := by omega
      omega
    simp only [List.cons_append, findIdxFrom, if_neg hne, List.append_eq]
    have harg : cur + covered hs (x :: r) + hs
        = cur + hs + x.size + covered hs r + hs := by
      rw [covered_cons]; omega
    rw [harg, ih (cur + hs + x.size)]
    rfl

/-- Any successful lookup returns an index inside the list, at the
address the adjacent layout assigns to it. -/
theorem findIdxFrom_some (hs : Nat) (l : List Block) (cur a i : Nat)
    (h : findIdxFrom hs l cur a = some i) :
    i < l.length ∧ a = cur + covered hs (l.take i) + hs := by
  induction l generalizing cur i with
  | nil => simp [findIdxFrom] at h
  | cons b r ih =>
    by_cases hc : cur + hs = a
    · simp only [findIdxFrom, if_pos hc] at h
      cases h
      constructor
      · simp
      · simp [covered_nil]; omega
    · simp only [findIdxFrom, if_neg hc, Option.map_eq_some'] at h
      rcases h with ⟨j, hj, hji⟩
      rcases ih (cur + hs + b.size) j hj with ⟨hlen, haddr⟩
      constructor
      · simp; omega
      · subst hji
        simp only [List.take_succ_cons, covered_cons]
        omega

/-- Lookup at the payload address of index `i` succeeds with `i`. -/
theorem findIdxFrom_payloadAddr (hs : Nat) (hpos : 0 < hs) (l : List Block)
    (base i : Nat) (hi : i < l.length) :
    findIdxFrom hs l base (payloadAddr hs base l i) = some i := by
  have hdecomp : l = l.take i ++ l.get ⟨i, hi⟩ :: l.drop (i + 1) := by
    conv_lhs => rw [← List.take_append_drop i l]
    rw [List.drop_eq_getElem_cons hi]
    rfl
  have hlen : (l.take i).length = i := by
    simp [List.length_take]
    omega
  have h := findIdxFrom_at hs hpos (l.take i) (l.get ⟨i, hi⟩) (l.drop (i + 1)) base
  rw [hlen, ← hdecomp] at h
  exact h

/-- The address one header past the whole list (where a fresh `sbrk`
region begins) matches no block. -/
theorem findIdxFrom_past (hs : Nat) (hpos : 0 < hs) (l : List Block) (base : Nat) :
    findIdxFrom hs l base (base + covered hs l + hs) = none := by
  cases h : findIdxFrom hs l base (base + covered hs l + hs) with
  | none => rfl
  | some i =>
    exfalso
    rcases findIdxFrom_some hs l base _ i h with ⟨hlen, haddr⟩
    have := @covered_take_lt hs hpos l i hlen
    omega

/-- Forward coalescing preserves the byte range the heap list covers
(provided the range fits `size_t`, so no merge wraps). -/
theorem covered_coalesceFuel (hs : Nat) (f : Nat) (l : List Block)
    (hW : covered hs l < W) :
    covered hs (coalesceFuel hs f l) = covered hs l := by
  induction f generalizing l with
  | zero => rfl
  | succ g ih =>
    rcases l with _ | ⟨a, _ | ⟨b, r⟩⟩
    · rfl
    · rfl
    · have hsz : a.size + hs + b.size < W := by
        rw [covered_cons, covered_cons] at hW
        omega
      have hm : covered hs (mergeB hs a b :: r) = covered hs (a :: b :: r) := by
        rw [covered_cons, covered_cons, covered_cons]
        unfold mergeB
        dsimp only
        rw [Nat.mod_eq_of_lt hsz]
        omega
      by_cases hc : a.status = Status.FREE ∧ b.status = Status.FREE
      · have hstep : coalesceFuel hs (g + 1) (a :: b :: r)
            = coalesceFuel hs g (mergeB hs a b :: r) := by
          simp only [coalesceFuel, if_pos hc]
        rw [hstep, ih (mergeB hs a b :: r) (by omega), hm]
      · have hstep : coalesceFuel hs (g + 1) (a :: b :: r)
            = a :: coalesceFuel hs g (b :: r) := by
          simp only [coalesceFuel, if_neg hc]
        have hb : covered hs (b :: r) < W := by
          rw [covered_cons] at hW; omega
        rw [hstep, covered_cons, covered_cons, ih (b :: r) hb]

theorem covered_coalesce (hs : Nat) (l : List Block) (hW : covered hs l < W) :
    covered hs (coalesce hs l) = covered hs l :=
  covered_coalesceFuel hs l.length l hW

theorem coalesceFuel_ne_nil (hs : Nat) (f : Nat) (l : List Block) (h : l ≠ []) :
    coalesceFuel hs f l ≠ [] := by
  induction f generalizing l with
  | zero => exact h
  | succ g ih =>
    rcases l with _ | ⟨a, _ | ⟨b, r⟩⟩
    · exact h
    · simp [coalesceFuel]
    · by_cases hc : a.status = Status.FREE ∧ b.status = Status.FREE
      · have hstep : coalesceFuel hs (g + 1) (a :: b :: r)
            = coalesceFuel hs g (mergeB hs a b :: r) := by
          simp only [coalesceFuel, if_pos hc]
        rw [hstep]
        exact ih _ (by simp)
      · have hstep : coalesceFuel hs (g + 1) (a :: b :: r)
            = a :: coalesceFuel hs g (b :: r) := by
          simp only [coalesceFuel, if_neg hc]
        rw [hstep]
        simp

theorem coalesce_ne_nil (hs : Nat) (l : List Block) (h : l ≠ []) :
    coalesce hs l ≠ [] :=
  coalesceFuel_ne_nil hs l.length l h

theorem mergeLastTwo_cons (hs : Nat) (x : Block) (l : List Block)
    (h : 2 ≤ l.length) : mergeLastTwo hs (x :: l) = x :: mergeLastTwo hs l := by
  rcases l with _ | ⟨c, _ | ⟨d, r⟩⟩
  · simp at h
  · simp at h
  · rfl

/-- Tail growth: linking a fresh block after the old tail and merging. -/
theorem mergeLastTwo_append (hs : Nat) (l1 : List Block) (a b : Block) :
    mergeLastTwo hs (l1 ++ [a, b]) = l1 ++ [mergeB hs a b] := by
  induction l1 with
  | nil => rfl
  | cons x r ih =>
    rw [List.cons_append, mergeLastTwo_cons hs x (r ++ [a, b]) (by simp), ih]
    rfl

theorem CandAt_lt_length {hs bytes : Nat} {l : List Block} {j : Nat}
    (h : CandAt hs bytes l j) : j < l.length := by
  rcases h with ⟨b, hb, _, _⟩
  by_contra hge
  rw [List.get?_eq_none.mpr (by omega)] at hb
  cases hb

/-- The best-fit loop establishes the invariant over the whole list. -/
theorem fbiAux_inv (hs bytes : Nat) (l : List Block) :
    ∀ (m : List Block) (k : Nat) (best : Option (Nat × Nat)),
      l.drop k = m → k ≤ l.length → BestInv hs bytes l k best →
      BestInv hs bytes l l.length (fbiAux hs bytes m k best) := by
  intro m
  induction m with
  | nil =>
    intro k best hdrop hk hinv
    have hkl : k = l.length := by
      have hlen := List.length_drop k l
      rw [hdrop] at hlen
      simp at hlen
      omega
    subst hkl
    exact hinv
  | cons b rest ih =>
    intro k best hdrop hk hinv
    have hk1 : k < l.length := by
      have hlen := List.length_drop k l
      rw [hdrop] at hlen
      simp at hlen
      omega
    have hget : l.get? k = some b := by
      have h0 : (l.drop k).get? 0 = some b := by rw [hdrop]; rfl
      rw [List.get?_drop] at h0
      simpa using h0
    have hrest : l.drop (k + 1) = rest := by
      have h1 : (l.drop k).drop 1 = rest := by rw [hdrop]; rfl
      rw [List.drop_drop] at h1
      exact h1
    have hsk : sizeAt l k = b.size := by
      unfold sizeAt
      rw [hget]
      rfl
    simp only [fbiAux]
    by_cases hcand : b.status = Status.FREE ∧ bytes ≤ (b.size + hs) % W
    · have hck : CandAt hs bytes l k := ⟨b, hget, hcand.1, hcand.2⟩
      cases best with
      | none =>
        have hinv' : ∀ j < k, ¬ CandAt hs bytes l j := hinv
        rw [if_pos hcand]
        apply ih (k + 1) _ hrest (by omega)
        refine ⟨by omega, hck, hsk, ?_, ?_⟩
        · intro j hj hcj
          rcases Nat.lt_succ_iff_lt_or_eq.mp hj with h | h
          · exact absurd hcj (hinv' j h)
          · subst h; omega
        · intro j hj hcj
          exact absurd hcj (hinv' j hj)
      | some p =>
        obtain ⟨bi, bs⟩ := p
        obtain ⟨hbik, hcbi, hsbi, hmin, hstrict⟩ := hinv
        rw [if_pos hcand]
        dsimp only
        by_cases hlt : b.size < bs
        · rw [if_pos hlt]
          apply ih (k + 1) _ hrest (by omega)
          refine ⟨by omega, hck, hsk, ?_, ?_⟩
          · intro j hj hcj
            rcases Nat.lt_succ_iff_lt_or_eq.mp hj with h | h
            · have := hmin j h hcj; omega
            · subst h; omega
          · intro j hj hcj
            have := hmin j (by omega) hcj; omega
        · rw [if_neg hlt]
          apply ih (k + 1) _ hrest (by omega)
          refine ⟨by omega, hcbi, hsbi, ?_, ?_⟩
          · intro j hj hcj
            rcases Nat.lt_succ_iff_lt_or_eq.mp hj with h | h
            · exact hmin j h hcj
            · subst h; omega
          · intro j hj hcj
            exact hstrict j hj hcj
    · have hnck : ¬ CandAt hs bytes l k := by
        rintro ⟨b', hb', hf, hsz⟩
        rw [hget] at hb'
        cases hb'
        exact hcand ⟨hf, hsz⟩
      rw [if_neg hcand]
      apply ih (k + 1) best hrest (by omega)
      cases best with
      | none =>
        have hinv' : ∀ j < k, ¬ CandAt hs bytes l j := hinv
        intro j hj hcj
        rcases Nat.lt_succ_iff_lt_or_eq.mp hj with h | h
        · exact hinv' j h hcj
        · subst h; exact hnck hcj
      | some p =>
        obtain ⟨bi, bs⟩ := p
        obtain ⟨hbik, hcbi, hsbi, hmin, hstrict⟩ := hinv
        refine ⟨by omega, hcbi, hsbi, ?_, hstrict⟩
        intro j hj hcj
        rcases Nat.lt_succ_iff_lt_or_eq.mp hj with h | h
        · exact hmin j h hcj
        · subst h; exact absurd hcj hnck

/-- On a miss, no block of the list is a candidate. -/
theorem find_best_index_none {hs bytes : Nat} {l : List Block}
    (h : find_best_index hs l bytes = none) : ∀ j, ¬ CandAt hs bytes l j := by
  have hfb : fbiAux hs bytes l 0 none = none := by
    unfold find_best_index at h
    cases hh : fbiAux hs bytes l 0 none with
    | none => rfl
    | some p => rw [hh] at h; cases h
  have hinv := fbiAux_inv hs bytes l l 0 none (by simp) (by omega)
    (fun j hj => absurd hj (Nat.not_lt_zero j))
  rw [hfb] at hinv
  intro j hcj
  exact hinv j (CandAt_lt_length hcj) hcj

/-- On a hit, the returned index is a candidate of minimal size, with
ties broken in favour of the earliest list position. -/
theorem find_best_index_some {hs bytes : Nat} {l : List Block} {i : Nat}
    (h : find_best_index hs l bytes = some i) :
    i < l.length ∧ CandAt hs bytes l i ∧
      (∀ j, CandAt hs bytes l j → sizeAt l i ≤ sizeAt l j) ∧
      (∀ j < i, CandAt hs bytes l j → sizeAt l i < sizeAt l j) := by
  unfold find_best_index at h
  cases hh : fbiAux hs bytes l 0 none with
  | none => rw [hh] at h; cases h
  | some p =>
    obtain ⟨bi, bs⟩ := p
    rw [hh] at h
    simp only [Option.map_some'] at h
    cases h
    have hinv := fbiAux_inv hs bytes l l 0 none (by simp) (by omega)
      (fun j hj => absurd hj (Nat.not_lt_zero j))
    rw [hh] at hinv
    obtain ⟨hbik, hcbi, hsbi, hmin, hstrict⟩ := hinv
    exact ⟨hbik, hcbi,
      fun j hcj => by have := hmin j (CandAt_lt_length hcj) hcj; omega,
      fun j hj hcj => by have := hstrict j hj hcj; omega⟩

theorem splitBlock_ne_nil (hs : Nat) (b : Block) (bytes : Nat) :
    splitBlock hs b bytes ≠ [] := by
  unfold splitBlock
  split <;> simp

theorem get?_decomp : ∀ (l : List Block) (i : Nat) (b : Block), l.get? i = some b →
    l = l.take i ++ b :: l.drop (i + 1)
  | [], _, _, h => by cases h
  | x :: r, 0, b, h => by
    cases h
    rfl
  | x :: r, i + 1, b, h => by
    have ih := get?_decomp r i b h
    simp only [List.take_succ_cons, List.drop_succ_cons, List.cons_append]
    exact congrArg (x :: ·) ih

theorem aligned_size_bounds (x : Nat) (h : x + 8 ≤ W) :
    x ≤ aligned_size x ∧ aligned_size x < x + 8 := by
  unfold aligned_size
  rw [W_eq] at h
  by_cases hr : x % 8 = 0
  · rw [if_pos hr]; omega
  · rw [if_neg hr]
    rw [Nat.mod_eq_of_lt (by rw [W_eq]; omega)]
    omega

theorem find_best_block_none {hs bytes : Nat} {l : List Block}
    (h : find_best_block hs l bytes = none) : find_best_index hs l bytes = none := by
  unfold find_best_block at h
  cases hfi : find_best_index hs l bytes with
  | none => rfl
  | some i => rw [hfi] at h; cases h

theorem mergeLastTwo_ne_nil (hs : Nat) (l : List Block) (h : l ≠ []) :
    mergeLastTwo hs l ≠ [] := by
  induction l with
  | nil => exact absurd rfl h
  | cons a r ih =>
    rcases r with _ | ⟨b, _ | ⟨c, r2⟩⟩
    · simp [mergeLastTwo]
    · simp [mergeLastTwo]
    · rw [mergeLastTwo_cons hs a (b :: c :: r2) (by simp)]
      simp

theorem length_splitList (hs : Nat) (l : List Block) (i bytes : Nat) :
    l.length ≤ (splitList hs l i bytes).length := by
  induction l generalizing i with
  | nil => simp [splitList]
  | cons b r ih =>
    cases i with
    | zero =>
      show (b :: r).length ≤ (splitBlock hs b bytes ++ r).length
      unfold splitBlock
      split <;> simp
    | succ j =>
      show (b :: r).length ≤ (b :: splitList hs r j bytes).length
      simp only [List.length_cons]
      exact Nat.succ_le_succ (ih j)

/-- Looking up the pointer the allocator just formed for heap index `i`
recovers exactly the `i`-th block. -/
theorem ptrBlock_payloadAddr (s : AllocState) (i : Nat) (hpos : 0 < s.headerSize)
    (hi : i < s.heap.length) :
    ptrBlock s (Ptr.hp (payloadAddr s.headerSize s.heapBase s.heap i)) = s.heap.get? i := by
  unfold ptrBlock findHeapIdx
  dsimp only
  rw [findIdxFrom_payloadAddr s.headerSize hpos s.heap s.heapBase i hi]
  simp only [Option.some_bind]

theorem allZero_fill (b : Block) : allZero (fill_with_zeros b) = true := by
  simp [allZero, fill_with_zeros, List.all_eq_true]

theorem noMapped_cons {b : Block} {l : List Block} :
    noMappedBlocks (b :: l) = true
      ↔ (b.status ≠ Status.MAPPED ∧ noMappedBlocks l = true) := by
  simp [noMappedBlocks]

theorem noMapped_append {l1 l2 : List Block} :
    noMappedBlocks (l1 ++ l2) = true
      ↔ (noMappedBlocks l1 = true ∧ noMappedBlocks l2 = true) := by
  simp [noMappedBlocks]

theorem noMapped_coalesceFuel (hs f : Nat) (l : List Block)
    (h : noMappedBlocks l = true) :
    noMappedBlocks (coalesceFuel hs f l) = true := by
  induction f generalizing l with
  | zero => exact h
  | succ g ih =>
    rcases l with _ | ⟨a, _ | ⟨b, r⟩⟩
    · exact h
    · exact h
    · rw [noMapped_cons, noMapped_cons] at h
      by_cases hc : a.status = Status.FREE ∧ b.status = Status.FREE
      · have hstep : coalesceFuel hs (g + 1) (a :: b :: r)
            = coalesceFuel hs g (mergeB hs a b :: r) := by
          simp only [coalesceFuel, if_pos hc]
        rw [hstep]
        exact ih _ (noMapped_cons.mpr ⟨h.1, h.2.2⟩)
      · have hstep : coalesceFuel hs (g + 1) (a :: b :: r)
            = a :: coalesceFuel hs g (b :: r) := by
          simp only [coalesceFuel, if_neg hc]
        rw [hstep, noMapped_cons]
        exact ⟨h.1, ih _ (noMapped_cons.mpr h.2)⟩

theorem noMapped_coalesce (hs : Nat) (l : List Block) (h : noMappedBlocks l = true) :
    noMappedBlocks (coalesce hs l) = true :=
  noMapped_coalesceFuel hs l.length l h

theorem noMapped_splitBlock (hs : Nat) (b : Block) (bytes : Nat)
    (hb : b.status ≠ Status.MAPPED) :
    noMappedBlocks (splitBlock hs b bytes) = true := by
  unfold splitBlock
  split
  · simp [noMappedBlocks, hb]
  · simp [noMappedBlocks, hb]

theorem noMapped_splitList (hs : Nat) (l : List Block) (i bytes : Nat)
    (h : noMappedBlocks l = true) :
    noMappedBlocks (splitList hs l i bytes) = true := by
  induction l generalizing i with
  | nil => exact h
  | cons b r ih =>
    rw [noMapped_cons] at h
    cases i with
    | zero =>
      show noMappedBlocks (splitBlock hs b bytes ++ r) = true
      rw [noMapped_append]
      exact ⟨noMapped_splitBlock hs b bytes h.1, h.2⟩
    | succ j =>
      show noMappedBlocks (b :: splitList hs r j bytes) = true
      rw [noMapped_cons]
      exact ⟨h.1, ih j h.2⟩

theorem noMapped_updateAt (f : Block → Block)
    (hf : ∀ b, b.status ≠ Status.MAPPED → (f b).status ≠ Status.MAPPED)
    (l : List Block) (i : Nat) (h : noMappedBlocks l = true) :
    noMappedBlocks (updateAt f l i) = true := by
  induction l generalizing i with
  | nil => exact h
  | cons b r ih =>
    rw [noMapped_cons] at h
    cases i with
    | zero =>
      show noMappedBlocks (f b :: r) = true
      rw [noMapped_cons]
      exact ⟨hf b h.1, h.2⟩
    | succ j =>
      show noMappedBlocks (b :: updateAt f r j) = true
      rw [noMapped_cons]
      exact ⟨h.1, ih j h.2⟩

theorem noMapped_mergeLastTwo (hs : Nat) :
    ∀ (l : List Block), noMappedBlocks l = true
      → noMappedBlocks (mergeLastTwo hs l) = true
  | [], h => h
  | [_], h => h
  | [a, b], h => by
    rw [noMapped_cons] at h
    show noMappedBlocks [mergeB hs a b] = true
    rw [noMapped_cons]
    exact ⟨h.1, rfl⟩
  | a :: b :: c :: r, h => by
    rw [noMapped_cons] at h
    rw [mergeLastTwo_cons hs a (b :: c :: r) (by simp), noMapped_cons]
    exact ⟨h.1, noMapped_mergeLastTwo hs (b :: c :: r) h.2⟩

theorem alloc_block_mapped_frame (t : AllocState) (bytes th : Nat) :
    (alloc_block t bytes th).1.mapped = t.mapped := by
  unfold alloc_block
  split <;> rfl

theorem alloc_block_status_sbrk (t : AllocState) (bytes th : Nat) (h : bytes ≤ th) :
    (alloc_block t bytes th).2.1.status = Status.ALLOC := by
  unfold alloc_block
  rw [if_neg (by omega)]

theorem abz_mapped_frame (t : AllocState) (bytes : Nat) :
    (alloc_block_with_zeros t bytes).1.mapped = t.mapped := by
  unfold alloc_block_with_zeros alloc_block
  split <;> rfl

theorem abz_status (t : AllocState) (bytes : Nat) (h : bytes ≤ t.pagesize) :
    (alloc_block_with_zeros t bytes).2.1.status = Status.ALLOC := by
  unfold alloc_block_with_zeros alloc_block fill_with_zeros
  rw [if_neg (by omega)]

theorem prealloc_mapped_frame (t : AllocState) (th bytes : Nat) :
    (prealloc t th bytes).1.mapped = t.mapped := by
  unfold prealloc alloc_block_with_zeros alloc_block
  repeat' split
  all_goals rfl

theorem prealloc_status_pagesize (t : AllocState) (bytes : Nat) (h : bytes ≤ t.pagesize) :
    (prealloc t t.pagesize bytes).2.1.status = Status.ALLOC := by
  unfold prealloc
  rw [if_pos rfl]
  by_cases hlt : bytes < t.pagesize
  · rw [if_pos hlt]
    simp only [alloc_block, fill_with_zeros]
    rw [if_neg (show ¬ INT_MAX < INIT_MEM_ALLOC by decide)]
  · rw [if_neg hlt]
    simp only [alloc_block_with_zeros, alloc_block, fill_with_zeros]
    rw [if_neg (by omega)]

theorem getLast?_eq_get?_last : ∀ (l : List Block), l.getLast? = l.get? (l.length - 1)
  | [] => rfl
  | [_] => rfl
  | a :: b :: r => by
    have ih := getLast?_eq_get?_last (b :: r)
    rw [List.getLast?_cons_cons, ih]
    show (b :: r).get? (r.length + 1 - 1) = (a :: b :: r).get? (r.length + 1 + 1 - 1)
    rw [Nat.add_sub_cancel, Nat.add_sub_cancel]
    rfl

theorem mem_of_getLast?_some {l : List Block} {b : Block}
    (h : l.getLast? = some b) : b ∈ l := by
  obtain ⟨h0, heq⟩ := List.mem_getLast?_eq_getLast (Option.mem_def.mpr h)
  rw [heq]
  exact List.getLast_mem h0

theorem find_best_block_some {hs bytes : Nat} {l : List Block} {i : Nat}
    {l' : List Block} (h : find_best_block hs l bytes = some (i, l')) :
    find_best_index hs l bytes = some i
      ∧ l' = setStatusAt (splitList hs l i bytes) i Status.ALLOC := by
  unfold find_best_block at h
  cases hfi : find_best_index hs l bytes with
  | none => rw [hfi] at h; cases h
  | some j =>
    rw [hfi] at h
    simp only [Option.some.injEq, Prod.mk.injEq] at h
    obtain ⟨h1, h2⟩ := h
    subst h1
    exact ⟨rfl, h2.symm⟩

theorem lookupMapped_cons_self (i : Nat) (b : Block) (r : List (Nat × Block)) :
    lookupMapped ((i, b) :: r) i = some b := by
  simp [lookupMapped]

theorem alloc_block_allZero (t : AllocState) (bytes th : Nat) :
    allZero (alloc_block t bytes th).2.1 = true := by
  unfold alloc_block
  split <;> simp [allZero, List.all_eq_true]

theorem abz_allZero (t : AllocState) (bytes : Nat) :
    allZero (alloc_block_with_zeros t bytes).2.1 = true := by
  unfold alloc_block_with_zeros
  exact allZero_fill _

theorem prealloc_allZero (t : AllocState) (th bytes : Nat) :
    allZero (prealloc t th bytes).2.1 = true := by
  unfold prealloc
  split
  · split
    · exact allZero_fill _
    · exact abz_allZero _ _
  · split
    · exact alloc_block_allZero _ _ _
    · exact alloc_block_allZero _ _ _

theorem allZero_replicate (a n : Nat) (st : Status) :
    allZero (Block.mk a st (List.replicate n 0)) = true := by
  simp [allZero, List.all_eq_true]

theorem alloc_block_eq_mmap (t : AllocState) (bytes th : Nat) (h : th < bytes) :
    alloc_block t bytes th
      = (t, Block.mk (wsub bytes t.headerSize) Status.MAPPED
          (List.replicate (wsub bytes t.headerSize) 0), true, t.brk) := by
  unfold alloc_block
  rw [if_pos h]

theorem alloc_block_eq_sbrk (t : AllocState) (bytes th : Nat) (h : ¬ th < bytes) :
    alloc_block t bytes th
      = ({ t with brk := t.brk + bytes },
         Block.mk (wsub bytes t.headerSize) Status.ALLOC
          (List.replicate (wsub bytes t.headerSize) 0), false, t.brk) := by
  unfold alloc_block
  rw [if_neg h]

theorem alloc_block_heapBase_frame (t : AllocState) (bytes th : Nat) :
    (alloc_block t bytes th).1.heapBase = t.heapBase := by
  unfold alloc_block
  split <;> rfl

theorem alloc_block_headerSize_frame (t : AllocState) (bytes th : Nat) :
    (alloc_block t bytes th).1.headerSize = t.headerSize := by
  unfold alloc_block
  split <;> rfl

theorem abz_heapBase_frame (t : AllocState) (bytes : Nat) :
    (alloc_block_with_zeros t bytes).1.heapBase = t.heapBase := by
  unfold alloc_block_with_zeros alloc_block
  split <;> rfl

theorem abz_headerSize_frame (t : AllocState) (bytes : Nat) :
    (alloc_block_with_zeros t bytes).1.headerSize = t.headerSize := by
  unfold alloc_block_with_zeros alloc_block
  split <;> rfl

theorem prealloc_headerSize_frame (t : AllocState) (th bytes : Nat) :
    (prealloc t th bytes).1.headerSize = t.headerSize := by
  unfold prealloc alloc_block_with_zeros alloc_block
  repeat' split
  all_goals rfl

theorem ptrBlock_mk_payloadAddr (heap : List Block) (hb bk : Nat)
    (mp : List (Nat × Block)) (ni ps hs sys : Nat) (i : Nat)
    (hpos : 0 < hs) (hi : i < heap.length) :
    ptrBlock (AllocState.mk heap hb bk mp ni ps hs sys)
      (Ptr.hp (payloadAddr hs hb heap i)) = heap.get? i := by
  unfold ptrBlock findHeapIdx
  dsimp only
  rw [findIdxFrom_payloadAddr hs hpos heap hb i hi]
  simp only [Option.some_bind]

/- ------------------------------------------------------------------ -/
/- Claim theorems                                                      -/
/- ------------------------------------------------------------------ -/

/-- C4: whenever `allocate` or `zero_allocate` searches the heap list for
`total_bytes`, the chosen block is a FREE block with
`header_size + size ≥ total_bytes` whose size is strictly smallest among
all candidates, ties broken in favour of the earliest block in list
order; on success the winner is split to `total_bytes` and marked ALLOC,
and when no candidate exists the search reports none. -/
theorem C4_best_fit (hs bytes : Nat) (l : List Block)
    (hwf : ∀ b ∈ l, b.size + hs < W) :
    (find_best_block hs l bytes = none → ∀ j, ¬ IsCandidate hs bytes l j) ∧
    (∀ i l', find_best_block hs l bytes = some (i, l') →
      IsCandidate hs bytes l i ∧
      (∀ j, IsCandidate hs bytes l j → sizeAt l i ≤ sizeAt l j) ∧
      (∀ j, j < i → IsCandidate hs bytes l j → sizeAt l i < sizeAt l j) ∧
      l' = setStatusAt (splitList hs l i bytes) i Status.ALLOC) := by
  have hbr : ∀ j, CandAt hs bytes l j ↔ IsCandidate hs bytes l j := by
    intro j
    constructor
    · rintro ⟨b, hb, hf, hsz⟩
      refine ⟨b, hb, hf, ?_⟩
      have hm := hwf b (List.get?_mem hb)
      rw [Nat.mod_eq_of_lt hm] at hsz
      omega
    · rintro ⟨b, hb, hf, hsz⟩
      refine ⟨b, hb, hf, ?_⟩
      have hm := hwf b (List.get?_mem hb)
      rw [Nat.mod_eq_of_lt hm]
      omega
  constructor
  · intro hnone j hcj
    unfold find_best_block at hnone
    cases hfi : find_best_index hs l bytes with
    | none => exact find_best_index_none hfi j ((hbr j).mpr hcj)
    | some i => rw [hfi] at hnone; cases hnone
  · intro i l' hsome
    unfold find_best_block at hsome
    cases hfi : find_best_index hs l bytes with
    | none => rw [hfi] at hsome; cases hsome
    | some i0 =>
      rw [hfi] at hsome
      simp only [Option.some.injEq, Prod.mk.injEq] at hsome
      obtain ⟨hi, hl⟩ := hsome
      subst hi
      subst hl
      obtain ⟨hlen, hc, hmin, hstrict⟩ := find_best_index_some hfi
      exact ⟨(hbr _).mp hc, fun j hj => hmin j ((hbr j).mpr hj),
        fun j hji hj => hstrict j hji ((hbr j).mpr hj), rfl⟩

/-- Witness for C4 at a concrete list (two candidates of equal minimal
size; the earlier one must win and be split and marked ALLOC). -/
theorem C4_best_fit_witness :
    (∀ b ∈ [Block.mk 64 Status.FREE [], Block.mk 40 Status.FREE [],
            Block.mk 40 Status.FREE []], b.size + 32 < W) ∧
    (find_best_block 32 [Block.mk 64 Status.FREE [], Block.mk 40 Status.FREE [],
        Block.mk 40 Status.FREE []] 40 = none →
      ∀ j, ¬ IsCandidate 32 40 [Block.mk 64 Status.FREE [],
        Block.mk 40 Status.FREE [], Block.mk 40 Status.FREE []] j) ∧
    (∀ i l', find_best_block 32 [Block.mk 64 Status.FREE [],
        Block.mk 40 Status.FREE [], Block.mk 40 Status.FREE []] 40 = some (i, l') →
      IsCandidate 32 40 [Block.mk 64 Status.FREE [], Block.mk 40 Status.FREE [],
        Block.mk 40 Status.FREE []] i ∧
      (∀ j, IsCandidate 32 40 [Block.mk 64 Status.FREE [],
        Block.mk 40 Status.FREE [], Block.mk 40 Status.FREE []] j →
        sizeAt [Block.mk 64 Status.FREE [], Block.mk 40 Status.FREE [],
          Block.mk 40 Status.FREE []] i ≤ sizeAt [Block.mk 64 Status.FREE [],
          Block.mk 40 Status.FREE [], Block.mk 40 Status.FREE []] j) ∧
      (∀ j, j < i → IsCandidate 32 40 [Block.mk 64 Status.FREE [],
        Block.mk 40 Status.FREE [], Block.mk 40 Status.FREE []] j →
        sizeAt [Block.mk 64 Status.FREE [], Block.mk 40 Status.FREE [],
          Block.mk 40 Status.FREE []] i < sizeAt [Block.mk 64 Status.FREE [],
          Block.mk 40 Status.FREE [], Block.mk 40 Status.FREE []] j) ∧
      l' = setStatusAt (splitList 32 [Block.mk 64 Status.FREE [],
        Block.mk 40 Status.FREE [], Block.mk 40 Status.FREE []] i 40) i Status.ALLOC) :=
  ⟨by decide, C4_best_fit 32 40 _ (by decide)⟩

/-- C3 (code bug witness): the very first operation
`os_calloc(1000, 8)` on a 4096-byte-page system installs a MAPPED block
as the head of the heap list (`heap_start`), contradicting invariant I5
of the spec (a MAPPED block never appears in the heap list). -/
theorem C3_bug_eval :
    ((os_calloc (initState 4096) 1000 8).1.heap.map Block.status = [Status.MAPPED]) ∧
    (os_calloc (initState 4096) 1000 8).1.heap ≠ [] := by decide

/-- C1 counterexample: with the heap initialized by `zero_allocate(10, 8)`
and that block freed, the call `zero_allocate(10, 500)` has
`aligned_size(10 * 500) + header_size = 5032 > pagesize = 4096`, yet it
is served from the heap region (a heap address is returned and no
anonymous mapping is created), so the claimed "exactly when" threshold
condition on the aligned total request is false.  (The code compares the
raw per-element `size` argument, `500 + 32 ≤ 4096`, instead.) -/
theorem C1_counterexample :
    ((os_free (os_calloc (initState 4096) 10 8).1
        (os_calloc (initState 4096) 10 8).2).pagesize
      < aligned_size ((10 * 500) % W)
        + (os_free (os_calloc (initState 4096) 10 8).1
            (os_calloc (initState 4096) 10 8).2).headerSize) ∧
    (os_calloc (os_free (os_calloc (initState 4096) 10 8).1
        (os_calloc (initState 4096) 10 8).2) 10 500).2 = Ptr.hp 1048608 ∧
    (os_calloc (os_free (os_calloc (initState 4096) 10 8).1
        (os_calloc (initState 4096) 10 8).2) 10 500).1.mapped = [] := by decide

/-- C9 counterexample: from the pristine state, `free(allocate(8))`
changes the heap list's covered byte range from 0 bytes to the 128 KiB
installed by the first-use preallocation, so the round-trip does not
leave the covered byte range unchanged for every `n > 0`. -/
theorem C9_counterexample :
    (0 : Nat) < 8 ∧
    covered 32 (os_free (os_malloc (initState 4096) 8).1
      (os_malloc (initState 4096) 8).2).heap = 131072 ∧
    covered 32 (initState 4096).heap = 0 := by decide

/-- C6 counterexample: at `block.size = total_bytes` (block of size 64,
`total_bytes = 64`) the claim requires a split (an inserted FREE block
and the block's size set to `total_bytes - header_size = 32`), but the
code leaves the block entirely unchanged: the C guard
`header_size + size - bytes <= header_size` returns exactly when
`size <= bytes`, not when `size < bytes`. -/
theorem C6_counterexample :
    64 ≤ (Block.mk 64 Status.FREE (List.replicate 64 1)).size ∧
    splitList 32 [Block.mk 64 Status.FREE (List.replicate 64 1)] 0 64
      = [Block.mk 64 Status.FREE (List.replicate 64 1)] ∧
    (splitList 32 [Block.mk 64 Status.FREE (List.replicate 64 1)] 0 64).length ≠ 2 := by
  decide

theorem aligned_size_mod8 (x : Nat) : aligned_size x % 8 = 0 := by
  unfold aligned_size
  rw [W_eq]
  by_cases h : x % 8 = 0
  · rw [if_pos h]; omega
  · rw [if_neg h]; omega

theorem aligned_size_idem (x : Nat) : aligned_size (aligned_size x) = aligned_size x := by
  have h := aligned_size_mod8 x
  generalize aligned_size x = y at h ⊢
  unfold aligned_size
  rw [if_pos h]

theorem os_malloc_aligned (s : AllocState) (x : Nat) :
    os_malloc s (aligned_size x) = os_malloc s x := by
  unfold os_malloc
  rw [aligned_size_idem]

theorem get?_append_cons (l1 : List Block) (b : Block) (l2 : List Block) :
    (l1 ++ b :: l2).get? l1.length = some b := by
  induction l1 with
  | nil => rfl
  | cons x r ih => simpa using ih

/-- C6 (amended): for `total_bytes` between `header_size` and
`header_size + block.size`, `split(block, total_bytes)` inserts a new
FREE block at `addr(block) + total_bytes` and sets the block's size to
`total_bytes - header_size` exactly when `block.size` is strictly
greater than `total_bytes` (the C guard returns when
`size <= total_bytes`, not only when `size < total_bytes`); otherwise it
leaves the block, its size, its status, and its links unchanged. -/
theorem C6_split (hs bytes : Nat) (l1 l2 : List Block) (b : Block) (base : Nat)
    (h1 : hs ≤ bytes) (h2 : bytes ≤ hs + b.size) (h3 : hs + b.size < W) :
    (bytes < b.size →
      splitList hs (l1 ++ b :: l2) l1.length bytes
        = l1 ++ { size := bytes - hs, status := b.status,
                  payload := b.payload.take (bytes - hs) }
             :: { size := b.size - bytes, status := Status.FREE,
                  payload := b.payload.drop bytes } :: l2 ∧
      blockAddr hs base (splitList hs (l1 ++ b :: l2) l1.length bytes) (l1.length + 1)
        = blockAddr hs base (l1 ++ b :: l2) l1.length + bytes) ∧
    (b.size ≤ bytes →
      splitList hs (l1 ++ b :: l2) l1.length bytes = l1 ++ b :: l2) := by
  constructor
  · intro hlt
    have heq : splitList hs (l1 ++ b :: l2) l1.length bytes
        = l1 ++ { size := bytes - hs, status := b.status,
                  payload := b.payload.take (bytes - hs) }
             :: { size := b.size - bytes, status := Status.FREE,
                  payload := b.payload.drop bytes } :: l2 := by
      rw [splitList_append_cons, splitBlock_of_lt h1 h2 h3 hlt]
      rfl
    refine ⟨heq, ?_⟩
    rw [heq]
    unfold blockAddr
    rw [List.take_append, List.take_left]
    simp only [List.take_succ_cons, List.take_zero]
    rw [covered_append, covered_cons, covered_nil]
    dsimp only
    omega
  · intro hle
    rw [splitList_append_cons, splitBlock_of_le h1 h2 h3 hle]
    rfl

/-- Witness for C6 at a concrete block: total bytes 40 against a FREE
block of size 64 (split happens), with the degenerate direction vacuous. -/
theorem C6_split_witness :
    (40 < (Block.mk 64 Status.FREE (List.replicate 64 5)).size →
      splitList 32 [Block.mk 64 Status.FREE (List.replicate 64 5)] 0 40
        = [{ size := 40 - 32, status := (Block.mk 64 Status.FREE (List.replicate 64 5)).status,
             payload := (Block.mk 64 Status.FREE (List.replicate 64 5)).payload.take (40 - 32) },
           { size := (Block.mk 64 Status.FREE (List.replicate 64 5)).size - 40,
             status := Status.FREE,
             payload := (Block.mk 64 Status.FREE (List.replicate 64 5)).payload.drop 40 }] ∧
      blockAddr 32 0 (splitList 32 [Block.mk 64 Status.FREE (List.replicate 64 5)] 0 40) 1
        = blockAddr 32 0 [Block.mk 64 Status.FREE (List.replicate 64 5)] 0 + 40) ∧
    ((Block.mk 64 Status.FREE (List.replicate 64 5)).size ≤ 40 →
      splitList 32 [Block.mk 64 Status.FREE (List.replicate 64 5)] 0 40
        = [Block.mk 64 Status.FREE (List.replicate 64 5)]) := by
  have h := C6_split 32 40 [] [] (Block.mk 64 Status.FREE (List.replicate 64 5)) 0
    (by decide) (by decide) (by decide)
  exact h

/-- C7: `reallocate` edge cases: a request whose aligned size is 0 frees
the pointer and returns nil; a nil pointer delegates exactly to
`allocate`; a pointer whose recovered block is FREE yields nil. -/
theorem C7_realloc_edges (s t : AllocState) (p : Ptr) (sz0 sz1 sz2 a : Nat) (b : Block)
    (h0 : aligned_size sz0 = 0)
    (hb : ptrBlock t (Ptr.hp a) = some b) (hf : b.status = Status.FREE) :
    os_realloc s p sz0 = (os_free s p, Ptr.null) ∧
    os_realloc s Ptr.null sz1 = os_malloc s sz1 ∧
    (os_realloc t (Ptr.hp a) sz2).2 = Ptr.null := by
  refine ⟨?_, ?_, ?_⟩
  · unfold os_realloc
    rw [h0]
    rfl
  · by_cases hz : aligned_size sz1 = 0
    · unfold os_realloc os_malloc
      rw [hz]
      rfl
    · unfold os_realloc
      rw [if_neg hz, if_pos rfl]
      exact os_malloc_aligned s sz1
  · by_cases hz : aligned_size sz2 = 0
    · unfold os_realloc
      rw [hz]
      rfl
    · unfold os_realloc
      rw [if_neg hz, if_neg (by simp), hb]
      dsimp only
      rw [if_pos hf]

/-- Witness for C7: a state whose single heap block is FREE, request
sizes 0 / 24 / 48. -/
theorem C7_realloc_edges_witness :
    os_realloc (AllocState.mk [Block.mk 64 Status.FREE (List.replicate 64 7)]
        1048576 1048672 [] 0 4096 32 4096) (Ptr.hp 1048608) 0
      = (os_free (AllocState.mk [Block.mk 64 Status.FREE (List.replicate 64 7)]
          1048576 1048672 [] 0 4096 32 4096) (Ptr.hp 1048608), Ptr.null) ∧
    os_realloc (AllocState.mk [Block.mk 64 Status.FREE (List.replicate 64 7)]
        1048576 1048672 [] 0 4096 32 4096) Ptr.null 24
      = os_malloc (AllocState.mk [Block.mk 64 Status.FREE (List.replicate 64 7)]
          1048576 1048672 [] 0 4096 32 4096) 24 ∧
    (os_realloc (AllocState.mk [Block.mk 64 Status.FREE (List.replicate 64 7)]
        1048576 1048672 [] 0 4096 32 4096) (Ptr.hp 1048608) 48).2 = Ptr.null :=
  C7_realloc_edges _ _ (Ptr.hp 1048608) 0 24 48 1048608
    (Block.mk 64 Status.FREE (List.replicate 64 7)) (by decide) (by decide) (by decide)

/-- C8: `free(nil)` and `free` of an already-FREE heap block leave the
entire allocator state unchanged; `free` of a heap ALLOC block changes
only that block's status to FREE, leaving every block's size, links and
payload bytes, `heap_start`, the mappings and the program break
unchanged. -/
theorem C8_free_frame (s t : AllocState) (l1 l2 m1 m2 : List Block) (b c : Block)
    (hpos : 0 < s.headerSize) (hpos' : 0 < t.headerSize)
    (hheap : s.heap = l1 ++ b :: l2) (hb : b.status = Status.ALLOC)
    (htheap : t.heap = m1 ++ c :: m2) (hc : c.status = Status.FREE) :
    os_free s Ptr.null = s ∧
    os_free s (Ptr.hp (s.heapBase + covered s.headerSize l1 + s.headerSize))
      = { s with heap := l1 ++ { b with status := Status.FREE } :: l2 } ∧
    os_free t (Ptr.hp (t.heapBase + covered t.headerSize m1 + t.headerSize)) = t := by
  refine ⟨rfl, ?_, ?_⟩
  · unfold os_free findHeapIdx
    rw [hheap]
    dsimp only
    rw [findIdxFrom_at s.headerSize hpos l1 b l2 s.heapBase]
    dsimp only
    rw [get?_append_cons]
    dsimp only
    rw [hb, if_neg (by simp), if_neg (by simp), setStatusAt_append_cons]
  · unfold os_free findHeapIdx
    rw [htheap]
    dsimp only
    rw [findIdxFrom_at t.headerSize hpos' m1 c m2 t.heapBase]
    dsimp only
    rw [get?_append_cons]
    dsimp only
    rw [if_pos hc]

/-- Witness for C8: concrete one-block states, ALLOC and FREE. -/
theorem C8_free_frame_witness :
    os_free (AllocState.mk [Block.mk 64 Status.ALLOC (List.replicate 64 9)]
        1048576 1048672 [] 0 4096 32 4096) Ptr.null
      = AllocState.mk [Block.mk 64 Status.ALLOC (List.replicate 64 9)]
          1048576 1048672 [] 0 4096 32 4096 ∧
    os_free (AllocState.mk [Block.mk 64 Status.ALLOC (List.replicate 64 9)]
        1048576 1048672 [] 0 4096 32 4096)
        (Ptr.hp (1048576 + covered 32 [] + 32))
      = { AllocState.mk [Block.mk 64 Status.ALLOC (List.replicate 64 9)]
            1048576 1048672 [] 0 4096 32 4096 with
          heap := [] ++ { Block.mk 64 Status.ALLOC (List.replicate 64 9) with
            status := Status.FREE } :: [] } ∧
    os_free (AllocState.mk [Block.mk 64 Status.FREE (List.replicate 64 9)]
        1048576 1048672 [] 0 4096 32 4096)
        (Ptr.hp (1048576 + covered 32 [] + 32))
      = AllocState.mk [Block.mk 64 Status.FREE (List.replicate 64 9)]
          1048576 1048672 [] 0 4096 32 4096 :=
  C8_free_frame _ _ [] [] [] [] (Block.mk 64 Status.ALLOC (List.replicate 64 9))
    (Block.mk 64 Status.FREE (List.replicate 64 9))
    (by decide) (by decide) rfl (by decide) rfl (by decide)

/-- C5: when `allocate` finds no best-fit candidate and the heap's tail
block is FREE, the data segment is extended by exactly
`requested_payload - tail.size` bytes, the new region is merged with the
tail (one block replaces the tail, the rest of the list untouched), and
the resulting block is marked ALLOC with size equal to the requested
aligned payload. -/
theorem C5_tail_growth (s : AllocState) (n sz : Nat) (l1 : List Block) (tl : Block)
    (hhs : s.headerSize = 32)
    (hsz : aligned_size n = sz) (hpos : 0 < sz) (hsmall : sz + 32 ≤ MMAP_THRESHOLD)
    (hheap : s.heap = l1 ++ [tl])
    (hco : coalesce 32 s.heap = s.heap)
    (hmiss : find_best_index 32 s.heap (sz + 32) = none)
    (htl : tl.status = Status.FREE)
    (hwf : ∀ b ∈ s.heap, b.size + 32 < W) :
    (os_malloc s n).1.brk = s.brk + (sz - tl.size) ∧
    (os_malloc s n).1.heap.map (fun b => (b.size, b.status))
      = l1.map (fun b => (b.size, b.status)) ++ [(sz, Status.ALLOC)] := by
  have hT : MMAP_THRESHOLD = 131072 := rfl
  have hszW : sz + 32 < W := by rw [W_eq]; rw [hT] at hsmall; omega
  have hmod : (sz + 32) % W = sz + 32 := Nat.mod_eq_of_lt hszW
  have htlmem : tl ∈ s.heap := by rw [hheap]; simp
  have htlW : tl.size + 32 < W := hwf tl htlmem
  -- the tail is no candidate, so it is strictly smaller than the request
  have hd : tl.size < sz := by
    have hnc := find_best_index_none hmiss l1.length
    have hget : s.heap.get? l1.length = some tl := by
      rw [hheap]; exact get?_append_cons l1 tl []
    by_contra hge
    exact hnc ⟨tl, hget, htl, by rw [Nat.mod_eq_of_lt htlW]; omega⟩
  have hwsub : wsub sz tl.size = sz - tl.size :=
    wsub_eq_of_le (by omega) (by omega) (by omega)
  have hfbb : find_best_block 32 s.heap (sz + 32) = none := by
    unfold find_best_block
    rw [hmiss]
  have hlast : s.heap.getLast? = some tl := by
    rw [hheap]; exact List.getLast?_concat l1
  have harith : (tl.size + 32 + wsub (sz - tl.size) 32) % W = sz := by
    unfold wsub
    rw [W_eq] at *
    omega
  simp only [os_malloc, hsz, hhs, hmod]
  rw [if_neg (by omega : ¬ sz = 0)]
  rw [if_neg (by rw [hT]; omega : ¬ MMAP_THRESHOLD < sz + 32)]
  rw [if_neg (by rw [hheap]; simp : ¬ s.heap = [])]
  rw [hco, hfbb]
  dsimp only
  rw [hlast]
  dsimp only
  rw [if_pos htl]
  simp only [alloc_block, hwsub]
  rw [if_neg (by rw [hT]; omega : ¬ MMAP_THRESHOLD < sz - tl.size)]
  dsimp only
  rw [hheap, List.append_assoc]
  simp only [List.cons_append, List.nil_append]
  rw [mergeLastTwo_append]
  have hlen : (l1 ++ [mergeB 32 tl
      { size := wsub (sz - tl.size) 32, status := Status.ALLOC,
        payload := List.replicate (wsub (sz - tl.size) 32) 0 }]).length - 1
      = l1.length := by simp
  rw [hlen, setStatusAt_append_cons]
  refine ⟨by trivial, ?_⟩
  dsimp only
  rw [List.map_append]
  simp only [List.map_cons, List.map_nil]
  unfold mergeB
  dsimp only
  rw [harith]

/-- Witness for C5: a one-block heap whose FREE tail of size 8 receives
a request of 64 aligned bytes: the break grows by 56 and the tail
becomes a 64-byte ALLOC block. -/
theorem C5_tail_growth_witness :
    (os_malloc (AllocState.mk [Block.mk 8 Status.FREE (List.replicate 8 3)]
        1048576 1048616 [] 0 0 32 4096) 64).1.brk = 1048616 + (64 - 8) ∧
    (os_malloc (AllocState.mk [Block.mk 8 Status.FREE (List.replicate 8 3)]
        1048576 1048616 [] 0 0 32 4096) 64).1.heap.map (fun b => (b.size, b.status))
      = ([] : List Block).map (fun b => (b.size, b.status)) ++ [(64, Status.ALLOC)] :=
  C5_tail_growth _ 64 64 [] (Block.mk 8 Status.FREE (List.replicate 8 3))
    rfl (by decide) (by decide) (by decide) rfl (by decide) (by decide) (by decide)
    (by decide)

/-- C1 (amended): with no size_t overflow in `count * size`,
`zero_allocate(count, size)` takes the mapping fast path — a fresh
anonymous mapping is created and the heap list is untouched — exactly
when `size + header_size` exceeds the page size, where `size` is the raw
per-element argument rather than the aligned total request; and whenever
both `size + header_size` and the aligned total
`aligned_size(count * size) + header_size` are at most the page size,
the request is served from the heap region: a heap address is returned,
the mapping table is unchanged, and no mapping-backed block enters the
heap list.  (When `size + header_size ≤ pagesize <
aligned_size(count*size) + header_size` the heap path itself may fall
back to a mapping, which the original claim does not cover either.) -/
theorem C1_calloc_threshold (s : AllocState) (count size : Nat)
    (hhs : s.headerSize = 32)
    (hc : 0 < count) (hz : 0 < size)
    (hnov : count * size + 40 < W)
    (hwf : covered 32 s.heap < W) :
    ((if s.pagesize = 0 then s.sysPagesize else s.pagesize) < size + 32 →
      (os_calloc s count size).2 = Ptr.mp s.nextMapId ∧
      (os_calloc s count size).1.heap = s.heap ∧
      (os_calloc s count size).1.mapped.map Prod.fst
        = s.nextMapId :: s.mapped.map Prod.fst) ∧
    (size + 32 ≤ (if s.pagesize = 0 then s.sysPagesize else s.pagesize) →
      aligned_size (count * size) + 32
          ≤ (if s.pagesize = 0 then s.sysPagesize else s.pagesize) →
      isHeapPtr (os_calloc s count size).2 = true ∧
      (os_calloc s count size).1.mapped = s.mapped ∧
      (noMappedBlocks s.heap = true →
        noMappedBlocks (os_calloc s count size).1.heap = true)) := by
  have hle1 : size ≤ count * size := Nat.le_mul_of_pos_left size hc
  have hmod1 : (count * size) % W = count * size := Nat.mod_eq_of_lt (by omega)
  obtain ⟨hal1, hal2⟩ := aligned_size_bounds (count * size) (by omega)
  have hmod2 : (size + 32) % W = size + 32 := Nat.mod_eq_of_lt (by omega)
  have hmod3 : (aligned_size (count * size) + 32) % W
      = aligned_size (count * size) + 32 := Nat.mod_eq_of_lt (by omega)
  have hSheap : (if s.pagesize = 0 then { s with pagesize := s.sysPagesize } else s).heap
      = s.heap := by split <;> rfl
  have hShs : (if s.pagesize = 0 then { s with pagesize := s.sysPagesize } else s).headerSize
      = 32 := by split <;> exact hhs
  have hSps : (if s.pagesize = 0 then { s with pagesize := s.sysPagesize } else s).pagesize
      = (if s.pagesize = 0 then s.sysPagesize else s.pagesize) := by split <;> rfl
  have hSmap : (if s.pagesize = 0 then { s with pagesize := s.sysPagesize } else s).mapped
      = s.mapped := by split <;> rfl
  have hSnext : (if s.pagesize = 0 then { s with pagesize := s.sysPagesize } else s).nextMapId
      = s.nextMapId := by split <;> rfl
  simp only [os_calloc]
  rw [if_neg (show ¬ (count = 0 ∨ size = 0) by omega)]
  simp only [hmod1, hSheap, hShs, hSps, hSmap, hSnext, hmod2, hmod3]
  constructor
  · intro hbig
    rw [if_pos hbig]
    simp only [alloc_block, hShs, hSps, hmod3]
    rw [if_pos (show (if s.pagesize = 0 then s.sysPagesize else s.pagesize)
        < aligned_size (count * size) + 32 by omega)]
    simp only [hSmap, hSnext]
    exact ⟨rfl, hSheap, by simp [hSmap, hSnext]⟩
  · intro hsm hsm2
    rw [if_neg (show ¬ (if s.pagesize = 0 then s.sysPagesize else s.pagesize)
        < size + 32 by omega)]
    by_cases hh : s.heap = []
    · rw [if_pos hh]
      rw [show aligned_size sizeof_block_meta = 32 from by decide]
      refine ⟨rfl, by simp [prealloc_mapped_frame, hSmap], ?_⟩
      intro hnm
      rw [noMapped_cons]
      refine ⟨?_, rfl⟩
      rw [prealloc_status_pagesize _ _ ?hb]
      · decide
      case hb =>
        show (aligned_size (count * size) + 32) % W
            ≤ (if s.pagesize = 0 then s.sysPagesize else s.pagesize)
        rw [hmod3]
        exact hsm2
    · rw [if_neg hh]
      cases hfb : find_best_block 32 (coalesce 32 s.heap)
          (aligned_size (count * size) + 32) with
      | some ih =>
        obtain ⟨j, l2⟩ := ih
        obtain ⟨hfbi, hl2⟩ := find_best_block_some hfb
        dsimp only
        subst hl2
        refine ⟨rfl, by simp [hSmap], ?_⟩
        intro hnm
        show noMappedBlocks (updateAt fill_with_zeros _ j) = true
        apply noMapped_updateAt _ (fun b hb => by
          simpa [fill_with_zeros] using hb)
        unfold setStatusAt
        apply noMapped_updateAt _ (fun b _ => by simp)
        apply noMapped_splitList
        exact noMapped_coalesce 32 s.heap hnm
      | none =>
        dsimp only
        have hne0 : coalesce 32 s.heap ≠ [] := coalesce_ne_nil 32 s.heap hh
        obtain ⟨tl, htl⟩ : ∃ tl, (coalesce 32 s.heap).getLast? = some tl := by
          cases hgl : (coalesce 32 s.heap).getLast? with
          | none => exact absurd (List.getLast?_eq_none.mp hgl) hne0
          | some t2 => exact ⟨t2, rfl⟩
        rw [htl]
        dsimp only
        have hcovco : covered 32 (coalesce 32 s.heap) = covered 32 s.heap :=
          covered_coalesce _ _ hwf
        have htlmem : tl ∈ coalesce 32 s.heap := mem_of_getLast?_some htl
        have htlb : 32 + tl.size ≤ covered 32 s.heap := by
          rw [← hcovco]
          exact mem_le_covered htlmem
        by_cases hfr : tl.status = Status.FREE
        · rw [if_pos hfr]
          have htlidx : (coalesce 32 s.heap).get?
              ((coalesce 32 s.heap).length - 1) = some tl := by
            rw [getLast?_eq_get?_last] at htl
            exact htl
          have hnc := find_best_index_none (find_best_block_none hfb)
            ((coalesce 32 s.heap).length - 1)
          have htlsz : tl.size < aligned_size (count * size) := by
            by_contra hge
            exact hnc ⟨tl, htlidx, hfr,
              by rw [Nat.mod_eq_of_lt (by rw [W_eq] at hwf ⊢; omega)]; omega⟩
          have hwsub : wsub (aligned_size (count * size)) tl.size
              = aligned_size (count * size) - tl.size :=
            wsub_eq_of_le (by omega) (by rw [W_eq] at hwf ⊢; omega)
              (by rw [W_eq] at hnov ⊢; omega)
          simp only [hwsub]
          refine ⟨rfl, by simp [alloc_block_mapped_frame, hSmap], ?_⟩
          intro hnm
          apply noMapped_updateAt _ (fun b hb => by
            simpa [fill_with_zeros] using hb)
          apply noMapped_mergeLastTwo
          rw [noMapped_append]
          refine ⟨noMapped_coalesce 32 s.heap hnm, ?_⟩
          rw [noMapped_cons]
          refine ⟨?_, rfl⟩
          rw [alloc_block_status_sbrk _ _ _
            (show aligned_size (count * size) - tl.size
              ≤ (if s.pagesize = 0 then s.sysPagesize else s.pagesize) by omega)]
          decide
        · rw [if_neg hfr]
          refine ⟨rfl, by simp [abz_mapped_frame, hSmap], ?_⟩
          intro hnm
          rw [noMapped_append]
          refine ⟨noMapped_coalesce 32 s.heap hnm, ?_⟩
          rw [noMapped_cons]
          refine ⟨?_, rfl⟩
          rw [abz_status _ _ ?hb2]
          · decide
          case hb2 =>
            show aligned_size (count * size) + 32
                ≤ (if s.pagesize = 0 then s.sysPagesize else s.pagesize)
            exact hsm2

/-- Witness for C1 at concrete inputs: from the pristine state on a
4096-byte-page system, `zero_allocate(3, 5)` has `5 + 32 ≤ 4096` and
`aligned_size(15) + 32 = 48 ≤ 4096`, so the heap-path half of the
amended claim applies. -/
theorem C1_calloc_threshold_witness :
    (((if (initState 4096).pagesize = 0 then (initState 4096).sysPagesize
        else (initState 4096).pagesize) < 5 + 32 →
      (os_calloc (initState 4096) 3 5).2 = Ptr.mp (initState 4096).nextMapId ∧
      (os_calloc (initState 4096) 3 5).1.heap = (initState 4096).heap ∧
      (os_calloc (initState 4096) 3 5).1.mapped.map Prod.fst
        = (initState 4096).nextMapId :: (initState 4096).mapped.map Prod.fst) ∧
    (5 + 32 ≤ (if (initState 4096).pagesize = 0 then (initState 4096).sysPagesize
        else (initState 4096).pagesize) →
      aligned_size (3 * 5) + 32 ≤ (if (initState 4096).pagesize = 0
        then (initState 4096).sysPagesize else (initState 4096).pagesize) →
      isHeapPtr (os_calloc (initState 4096) 3 5).2 = true ∧
      (os_calloc (initState 4096) 3 5).1.mapped = (initState 4096).mapped ∧
      (noMappedBlocks (initState 4096).heap = true →
        noMappedBlocks (os_calloc (initState 4096) 3 5).1.heap = true))) :=
  C1_calloc_threshold (initState 4096) 3 5 rfl (by decide) (by decide)
    (by rw [W_eq]; decide) (by rw [W_eq]; decide)

theorem lastFill_allZero (H : List Block) (hb bk : Nat)
    (mp : List (Nat × Block)) (ni ps hs sys : Nat)
    (hpos : 0 < hs) (hne : H ≠ []) :
    ((ptrBlock (AllocState.mk (updateAt fill_with_zeros H (H.length - 1)) hb bk mp ni ps hs sys)
        (Ptr.hp (payloadAddr hs hb (updateAt fill_with_zeros H (H.length - 1))
          ((updateAt fill_with_zeros H (H.length - 1)).length - 1)))).map allZero).getD true
      = true := by
  have hlen : 0 < H.length := List.length_pos.mpr hne
  have hidx : (updateAt fill_with_zeros H (H.length - 1)).length - 1
      < (updateAt fill_with_zeros H (H.length - 1)).length := by
    rw [length_updateAt]
    omega
  rw [ptrBlock_mk_payloadAddr _ _ _ _ _ _ _ _ _ hpos hidx]
  rw [length_updateAt, get?_updateAt_self, List.get?_eq_get (by omega)]
  simp only [Option.map_some', Option.getD_some]
  exact allZero_fill _

theorem appendZero_allZero (H : List Block) (b : Block) (hb bk : Nat)
    (mp : List (Nat × Block)) (ni ps hs sys : Nat)
    (hpos : 0 < hs) (hzb : allZero b = true) :
    ((ptrBlock (AllocState.mk (H ++ [b]) hb bk mp ni ps hs sys)
        (Ptr.hp (payloadAddr hs hb (H ++ [b]) ((H ++ [b]).length - 1)))).map allZero).getD true
      = true := by
  have hidx : (H ++ [b]).length - 1 < (H ++ [b]).length := by simp
  rw [ptrBlock_mk_payloadAddr _ _ _ _ _ _ _ _ _ hpos hidx]
  have hix : (H ++ [b]).length - 1 = H.length := by simp
  rw [hix, get?_append_cons]
  simp [hzb]

/-- C2: for every `count > 0` and `size > 0`, every byte of the payload
of the block returned by `zero_allocate(count, size)` reads as zero
immediately after the call, on all paths: mapping-backed (kernel-zero
pages), first-heap preallocation (explicit fill), best-fit reuse
(explicit fill of the reused payload) and tail growth (explicit fill of
the grown block). -/
theorem C2_calloc_zero (s : AllocState) (count size : Nat)
    (hc : 0 < count) (hz : 0 < size)
    (hpos : 0 < s.headerSize)
    (hbrk : s.brk = s.heapBase + covered s.headerSize s.heap) :
    ((ptrBlock (os_calloc s count size).1 (os_calloc s count size).2).map
        allZero).getD true = true := by
  have hSheap : (if s.pagesize = 0 then { s with pagesize := s.sysPagesize } else s).heap
      = s.heap := by split <;> rfl
  have hShs : (if s.pagesize = 0 then { s with pagesize := s.sysPagesize } else s).headerSize
      = s.headerSize := by split <;> rfl
  have hSbase : (if s.pagesize = 0 then { s with pagesize := s.sysPagesize } else s).heapBase
      = s.heapBase := by split <;> rfl
  have hSbrk : (if s.pagesize = 0 then { s with pagesize := s.sysPagesize } else s).brk
      = s.brk := by split <;> rfl
  simp only [os_calloc]
  rw [if_neg (show ¬ (count = 0 ∨ size = 0) by omega)]
  simp only [hSheap, hShs, hSbase, hSbrk]
  by_cases hfast : (if s.pagesize = 0 then { s with pagesize := s.sysPagesize } else s).pagesize
      < (size + s.headerSize) % W
  · -- fast path: alloc_block(NULL, new_size + header_size, pagesize)
    rw [if_pos hfast]
    by_cases hm : (if s.pagesize = 0 then { s with pagesize := s.sysPagesize } else s).pagesize
        < (aligned_size (count * size % W) + s.headerSize) % W
    · -- a fresh anonymous mapping: its pages read as zero
      rw [alloc_block_eq_mmap _ _ _ hm]
      dsimp only
      rw [if_pos rfl]
      dsimp only
      simp only [ptrBlock]
      rw [lookupMapped_cons_self]
      simp only [Option.map_some', Option.getD_some]
      rw [hShs]
      exact allZero_replicate _ _ _
    · -- size_t wrap corner: an sbrk block that is never linked into the
      -- heap list; its payload address is one header past the covered
      -- range, so it resolves to no block of the model
      rw [alloc_block_eq_sbrk _ _ _ hm]
      dsimp only
      rw [if_neg (by simp)]
      dsimp only
      simp only [ptrBlock, findHeapIdx]
      simp only [hSheap, hShs, hSbase, hSbrk]
      rw [hbrk, findIdxFrom_past s.headerSize hpos]
      rfl
  · -- heap path
    rw [if_neg hfast]
    by_cases hh : s.heap = []
    · -- first-heap preallocation
      rw [if_pos hh]
      simp only [ptrBlock, findHeapIdx]
      simp only [prealloc_headerSize_frame]
      simp only [findIdxFrom]
      rw [if_pos trivial]
      simp only [Option.some_bind, List.get?_cons_zero, Option.map_some', Option.getD_some]
      exact prealloc_allZero _ _ _
    · rw [if_neg hh]
      cases hfb : find_best_block s.headerSize (coalesce s.headerSize s.heap)
          ((aligned_size (count * size % W) + s.headerSize) % W) with
      | some ih =>
        -- best-fit reuse: the winner is zero-filled after the split
        obtain ⟨j, l2⟩ := ih
        obtain ⟨hfbi, hl2⟩ := find_best_block_some hfb
        dsimp only
        obtain ⟨hjlen, -, -, -⟩ := find_best_index_some hfbi
        have hj2 : j < l2.length := by
          rw [hl2]
          unfold setStatusAt
          rw [length_updateAt]
          exact Nat.lt_of_lt_of_le hjlen (length_splitList _ _ _ _)
        have hj3 : j < (updateAt fill_with_zeros l2 j).length := by
          rw [length_updateAt]
          exact hj2
        rw [ptrBlock_mk_payloadAddr _ _ _ _ _ _ _ _ _ hpos hj3]
        rw [get?_updateAt_self, List.get?_eq_get hj2]
        simp only [Option.map_some', Option.getD_some]
        exact allZero_fill _
      | none =>
        dsimp only
        have hne0 : coalesce s.headerSize s.heap ≠ [] := coalesce_ne_nil _ _ hh
        obtain ⟨tl, htl⟩ : ∃ tl, (coalesce s.headerSize s.heap).getLast? = some tl := by
          cases hgl : (coalesce s.headerSize s.heap).getLast? with
          | none => exact absurd (List.getLast?_eq_none.mp hgl) hne0
          | some t2 => exact ⟨t2, rfl⟩
        rw [htl]
        dsimp only
        by_cases hfr : tl.status = Status.FREE
        · -- tail growth: the merged tail is zero-filled
          rw [if_pos hfr]
          simp only [alloc_block_heapBase_frame, alloc_block_headerSize_frame, hSbase, hShs]
          exact lastFill_allZero _ _ _ _ _ _ _ _ hpos
            (mergeLastTwo_ne_nil _ _ (by simp))
        · -- append after an ALLOC tail: the fresh block is zero-filled
          rw [if_neg hfr]
          simp only [abz_heapBase_frame, abz_headerSize_frame, hSbase, hShs]
          exact appendZero_allZero _ _ _ _ _ _ _ _ _ hpos (abz_allZero _ _)

/-- Witness for C2 at concrete inputs: `zero_allocate(1, 1)` from the
pristine state on a 4096-byte-page system. -/
theorem C2_calloc_zero_witness :
    ((ptrBlock (os_calloc (initState 4096) 1 1).1
        (os_calloc (initState 4096) 1 1).2).map allZero).getD true = true :=
  C2_calloc_zero (initState 4096) 1 1 (by decide) (by decide) (by decide) (by decide)

/-- C9 (amended): for every `n > 0` whose request stays on the heap path
(`aligned_size(n) + header_size ≤ MMAP_THRESHOLD`) and is served by
best-fit reuse from the already-initialized heap, the sequence
`a = allocate(n); free(a)` leaves the heap list's covered byte range
unchanged and leaves the block at `a` marked FREE. -/
theorem C9_roundtrip (s : AllocState) (n sz i : Nat)
    (hhs : s.headerSize = 32)
    (hsz : aligned_size n = sz) (hpos : 0 < sz) (hsmall : sz + 32 ≤ MMAP_THRESHOLD)
    (hne : s.heap ≠ [])
    (hhit : find_best_index 32 (coalesce 32 s.heap) (sz + 32) = some i)
    (hwf : covered 32 s.heap < W) :
    covered 32 (os_free (os_malloc s n).1 (os_malloc s n).2).heap = covered 32 s.heap ∧
    ∃ b, ptrBlock (os_free (os_malloc s n).1 (os_malloc s n).2) (os_malloc s n).2
        = some b ∧ b.status = Status.FREE := by
  have hT : MMAP_THRESHOLD = 131072 := rfl
  have hszW : sz + 32 < W := by rw [W_eq]; rw [hT] at hsmall; omega
  have hmod : (sz + 32) % W = sz + 32 := Nat.mod_eq_of_lt hszW
  have hcov0 : covered 32 (coalesce 32 s.heap) = covered 32 s.heap :=
    covered_coalesce 32 s.heap hwf
  obtain ⟨hilen, hcand, hmin, hstrict⟩ := find_best_index_some hhit
  obtain ⟨b0, hget, hfree, hcandsz⟩ := hcand
  have hmem : b0 ∈ coalesce 32 s.heap := List.get?_mem hget
  have hb0c : 32 + b0.size ≤ covered 32 (coalesce 32 s.heap) := mem_le_covered hmem
  have hb0W : 32 + b0.size < W := by omega
  have hble : sz + 32 ≤ 32 + b0.size := by
    rw [Nat.mod_eq_of_lt (by omega)] at hcandsz
    omega
  have hdec := get?_decomp (coalesce 32 s.heap) i b0 hget
  have hlen1 : ((coalesce 32 s.heap).take i).length = i := by
    simp [List.length_take]
    omega
  obtain ⟨B1, rest1, hsb⟩ := List.exists_cons_of_ne_nil (splitBlock_ne_nil 32 b0 (sz + 32))
  have hsplit := splitList_append_cons 32 ((coalesce 32 s.heap).take i) b0
    ((coalesce 32 s.heap).drop (i + 1)) (sz + 32)
  rw [hlen1, ← hdec, hsb] at hsplit
  simp only [List.cons_append] at hsplit
  have hset := setStatusAt_append_cons ((coalesce 32 s.heap).take i) B1
    (rest1 ++ (coalesce 32 s.heap).drop (i + 1)) Status.ALLOC
  rw [hlen1] at hset
  have hcovsplit : covered 32 (B1 :: rest1) = 32 + b0.size := by
    rw [← hsb]
    exact covered_splitBlock (by omega) (by omega) (by omega)
  have hfbb : find_best_block 32 (coalesce 32 s.heap) (sz + 32)
      = some (i, setStatusAt (splitList 32 (coalesce 32 s.heap) i (sz + 32)) i
          Status.ALLOC) := by
    unfold find_best_block
    rw [hhit]
  simp only [os_malloc, hsz, hhs, hmod]
  rw [if_neg (by omega : ¬ sz = 0), if_neg (by rw [hT]; omega : ¬ MMAP_THRESHOLD < sz + 32),
    if_neg hne, hfbb]
  dsimp only
  rw [hsplit, hset]
  -- the allocated block and the two decomposed heaps
  have htake : (((coalesce 32 s.heap).take i
      ++ { B1 with status := Status.ALLOC }
        :: (rest1 ++ (coalesce 32 s.heap).drop (i + 1))).take i)
      = (coalesce 32 s.heap).take i := by
    exact List.take_left' hlen1
  have haddr : payloadAddr 32 s.heapBase
      ((coalesce 32 s.heap).take i
        ++ { B1 with status := Status.ALLOC }
          :: (rest1 ++ (coalesce 32 s.heap).drop (i + 1))) i
      = s.heapBase + covered 32 ((coalesce 32 s.heap).take i) + 32 := by
    unfold payloadAddr blockAddr
    rw [htake]
  rw [haddr]
  -- evaluate the free
  unfold os_free findHeapIdx
  dsimp only
  rw [findIdxFrom_at 32 (by omega) ((coalesce 32 s.heap).take i)
    ({ B1 with status := Status.ALLOC })
    (rest1 ++ (coalesce 32 s.heap).drop (i + 1)) s.heapBase]
  dsimp only
  rw [get?_append_cons]
  dsimp only
  rw [if_neg (by simp), if_neg (by simp)]
  have hsetF := setStatusAt_append_cons ((coalesce 32 s.heap).take i)
    ({ B1 with status := Status.ALLOC })
    (rest1 ++ (coalesce 32 s.heap).drop (i + 1)) Status.FREE
  rw [hsetF]
  constructor
  · -- covered byte range unchanged
    rw [covered_append, covered_cons, covered_append]
    have hc1 : covered 32 (coalesce 32 s.heap)
        = covered 32 ((coalesce 32 s.heap).take i) + (32 + b0.size)
          + covered 32 ((coalesce 32 s.heap).drop (i + 1)) := by
      conv_lhs => rw [hdec]
      rw [covered_append, covered_cons]
      omega
    rw [covered_cons] at hcovsplit
    dsimp only
    omega
  · -- the block at the returned address is FREE
    refine ⟨Block.mk B1.size Status.FREE B1.payload, ?_, rfl⟩
    unfold ptrBlock findHeapIdx
    dsimp only
    rw [findIdxFrom_at 32 (by omega) ((coalesce 32 s.heap).take i)
      (Block.mk B1.size Status.FREE B1.payload)
      (rest1 ++ (coalesce 32 s.heap).drop (i + 1)) s.heapBase]
    simp only [Option.some_bind]
    rw [get?_append_cons]

/-- Witness for C9 at a concrete state: one FREE block of 128 bytes,
request of 64 bytes. -/
theorem C9_roundtrip_witness :
    covered 32 (os_free
        (os_malloc (AllocState.mk [Block.mk 128 Status.FREE (List.replicate 128 6)]
          1048576 1048736 [] 0 0 32 4096) 64).1
        (os_malloc (AllocState.mk [Block.mk 128 Status.FREE (List.replicate 128 6)]
          1048576 1048736 [] 0 0 32 4096) 64).2).heap
      = covered 32 (AllocState.mk [Block.mk 128 Status.FREE (List.replicate 128 6)]
          1048576 1048736 [] 0 0 32 4096).heap ∧
    ∃ b, ptrBlock (os_free
        (os_malloc (AllocState.mk [Block.mk 128 Status.FREE (List.replicate 128 6)]
          1048576 1048736 [] 0 0 32 4096) 64).1
        (os_malloc (AllocState.mk [Block.mk 128 Status.FREE (List.replicate 128 6)]
          1048576 1048736 [] 0 0 32 4096) 64).2)
        (os_malloc (AllocState.mk [Block.mk 128 Status.FREE (List.replicate 128 6)]
          1048576 1048736 [] 0 0 32 4096) 64).2 = some b ∧ b.status = Status.FREE :=
  C9_roundtrip _ 64 64 0 rfl (by decide) (by decide) (by decide) (by decide)
    (by decide) (by rw [W_eq]; decide)

/-- C10: `os_calloc` computes the total request as `nmemb * size`
reduced modulo `2^64` with no overflow check: for `count = 2^62 + 1` and
`size = 8` (mathematical product `2^65 + 8 ≥ 2^64`) the call returns a
non-nil address whose block's stored size is
`aligned_size((count * size) mod 2^64) = 8`, strictly smaller than the
mathematical product. -/
theorem C10_overflow :
    (0 : Nat) < 2 ^ 62 + 1 ∧ (0 : Nat) < 8 ∧ 2 ^ 64 ≤ (2 ^ 62 + 1) * 8 ∧
    (os_calloc (os_free (os_calloc (initState 4096) 10 8).1
        (os_calloc (initState 4096) 10 8).2) (2 ^ 62 + 1) 8).2 = Ptr.hp 1048608 ∧
    (ptrBlock (os_calloc (os_free (os_calloc (initState 4096) 10 8).1
          (os_calloc (initState 4096) 10 8).2) (2 ^ 62 + 1) 8).1
        (os_calloc (os_free (os_calloc (initState 4096) 10 8).1
          (os_calloc (initState 4096) 10 8).2) (2 ^ 62 + 1) 8).2).map Block.size
      = some (aligned_size (((2 ^ 62 + 1) * 8) % W)) ∧
    aligned_size (((2 ^ 62 + 1) * 8) % W) < (2 ^ 62 + 1) * 8 := by decide

end OSMem
